import Mathlib

/-!
Verification of the rendering/reconciliation core of the `mark-ed` in-browser
Markdown editor, against its natural-language specification.

The TypeScript sources are shallowly embedded: strings stay `String` (or
`List Char` where character-level index arithmetic matters), JavaScript array
index reads `a[i]` (which yield `undefined` out of range) become `l[i]?`
(`Option`), and the `while`/`for` loops become structurally recursive
functions with the same guards.  Each definition names the source function it
embeds.
-/

namespace MarkEd

/-! ## Line diff (`diffLines`, src/unnamed/part_005, and the inline
reconciliation in `Editor.updateDOM`, src/src/editor.ts lines 399-483) -/

/-- One entry of the edit script produced by `diffLines`
(`DiffResult` in src/unnamed/part_005).  `value` is `after[line]`, an
`Option` because a JavaScript out-of-range read yields `undefined`. -/
structure DiffResult where
  index : Nat
  type : String
  value : Option String
  deriving Repr, DecidableEq

/-- `diffLines(before, after)` from src/unnamed/part_005 lines 10-44.
When `delta == 0` it pushes an independent single-line `'changed'` entry for
every index whose lines differ.  When `delta != 0` the loop body is empty
(the source comments it as an unfinished attempt), so no entry is pushed. -/
def diffLines (before after : List String) : List DiffResult :=
  let delta : Int := (after.length : Int) - (before.length : Int)
  let len := max before.length after.length
  if delta = 0 then
    (List.range len).filterMap fun line =>
      if before[line]? = after[line]? then none
      else some ⟨line, "changed", after[line]?⟩
  else
    []

/-- Replay an edit script of single-line `'changed'` entries against the old
line sequence: each entry overwrites the line at its index. -/
def applyDiff (before : List String) (script : List DiffResult) : List String :=
  script.foldl (fun acc d => acc.set d.index (d.value.getD "")) before

theorem foldl_filterMap_eq {α β γ : Type} (f : α → Option β) (g : γ → β → γ)
    (L : List α) (init : γ) :
    (L.filterMap f).foldl g init = L.foldl (fun a x => (f x).elim a (g a)) init := by
  induction L generalizing init with
  | nil => rfl
  | cons x xs ih =>
    simp only [List.filterMap_cons]
    cases h : f x <;> simp [List.foldl_cons, h, ih]

theorem applyDiff_step_invariant (before after : List String)
    (L : List Nat) (acc : List String) (hnd : L.Nodup)
    (hlen : acc.length = after.length)
    (hin : ∀ i ∈ L, acc[i]? = before[i]?)
    (hout : ∀ i, i ∉ L → acc[i]? = after[i]?)
    (hrange : ∀ i ∈ L, i < after.length) :
    L.foldl (fun a x =>
      ((if before[x]? = after[x]? then none
        else some (DiffResult.mk x "changed" after[x]?)).elim a
        (fun d => a.set d.index (d.value.getD ""))) ) acc = after := by
  induction L generalizing acc with
  | nil =>
    apply List.ext_getElem?
    intro i
    exact hout i (by simp)
  | cons j rest ih =>
    simp only [List.foldl_cons]
    have hjrest : j ∉ rest := (List.nodup_cons.mp hnd).1
    have hjlt : j < after.length := hrange j (List.mem_cons_self j rest)
    by_cases hje : before[j]? = after[j]?
    · have hstep : ((if before[j]? = after[j]? then none
          else some (DiffResult.mk j "changed" after[j]?)).elim acc
          (fun d => acc.set d.index (d.value.getD ""))) = acc := by
        rw [if_pos hje]
        rfl
      rw [hstep]
      refine ih acc (List.nodup_cons.mp hnd).2 hlen
        (fun i hi => hin i (List.mem_cons_of_mem j hi)) (fun i hi => ?_)
        (fun i hi => hrange i (List.mem_cons_of_mem j hi))
      by_cases hij : i = j
      · subst hij
        rw [hin i (List.mem_cons_self i rest), hje]
      · exact hout i (by
          simp only [List.mem_cons, not_or]
          exact ⟨hij, hi⟩)
    · have hstep : ((if before[j]? = after[j]? then none
          else some (DiffResult.mk j "changed" after[j]?)).elim acc
          (fun d => acc.set d.index (d.value.getD ""))) =
          acc.set j ((after[j]?).getD "") := by
        rw [if_neg hje]
        rfl
      rw [hstep]
      have hval : after[j]? = some (after.get ⟨j, hjlt⟩) := by
        simp
      refine ih _ (List.nodup_cons.mp hnd).2 (by simp [hlen]) (fun i hi => ?_) (fun i hi => ?_)
        (fun i hi => hrange i (List.mem_cons_of_mem j hi))
      · have hij : i ≠ j := fun h => hjrest (h ▸ hi)
        rw [List.getElem?_set_ne (by omega)]
        exact hin i (List.mem_cons_of_mem j hi)
      · by_cases hij : i = j
        · subst hij
          rw [hval]
          simp only [Option.getD_some]
          rw [List.getElem?_set_self (by omega)]
        · rw [List.getElem?_set_ne (by omega)]
          exact hout i (by
            simp only [List.mem_cons, not_or]
            exact ⟨hij, hi⟩)

/-- **C2.** For equal-length inputs (`delta == 0`), `diffLines` marks exactly
the indices where `before` and `after` differ as independent single-line
`'changed'` replacements carrying `after[i]`, and replaying the script on
`before` (overwriting exactly those indices, retaining all others) yields
`after`. -/
theorem diffLines_delta_zero_spec (before after : List String)
    (h : before.length = after.length) :
    (∀ d ∈ diffLines before after,
        d.type = "changed" ∧ d.value = after[d.index]? ∧
        before[d.index]? ≠ after[d.index]?) ∧
    (∀ i, before[i]? ≠ after[i]? → ∃ d ∈ diffLines before after, d.index = i) ∧
    applyDiff before (diffLines before after) = after := by
  have hdelta : ((after.length : Int) - (before.length : Int)) = 0 := by omega
  have hmax : max before.length after.length = after.length := by omega
  have hdiff : diffLines before after =
      (List.range after.length).filterMap (fun line =>
        if before[line]? = after[line]? then none
        else some ⟨line, "changed", after[line]?⟩) := by
    unfold diffLines
    simp [hdelta, hmax]
  refine ⟨?_, ?_, ?_⟩
  · intro d hd
    rw [hdiff] at hd
    obtain ⟨i, _, hf⟩ := List.mem_filterMap.mp hd
    by_cases hie : before[i]? = after[i]?
    · simp [hie] at hf
    · rw [if_neg hie, Option.some_inj] at hf
      subst hf
      exact ⟨rfl, rfl, hie⟩
  · intro i hie
    have hilt : i < after.length := by
      by_contra hge
      have h1 : before[i]? = none := by
        apply List.getElem?_eq_none
        omega
      have h2 : after[i]? = none := by
        apply List.getElem?_eq_none
        omega
      exact hie (h1.trans h2.symm)
    refine ⟨⟨i, "changed", after[i]?⟩, ?_, rfl⟩
    rw [hdiff]
    exact List.mem_filterMap.mpr ⟨i, List.mem_range.mpr hilt, by simp [hie]⟩
  · rw [hdiff]
    unfold applyDiff
    rw [foldl_filterMap_eq]
    exact applyDiff_step_invariant before after (List.range after.length) before
      (List.nodup_range after.length)
      h
      (fun i _ => rfl)
      (fun i hi => by
        have hge : after.length ≤ i := by
          by_contra hlt
          exact hi (List.mem_range.mpr (by omega))
        rw [List.getElem?_eq_none (by omega), List.getElem?_eq_none (by omega)])
      (fun i hi => List.mem_range.mp hi)

/-- Witness for C2 at a concrete input. -/
theorem diffLines_delta_zero_spec_witness :
    applyDiff ["a", "b", "c"] (diffLines ["a", "b", "c"] ["a", "x", "c"]) =
      ["a", "x", "c"] :=
  (diffLines_delta_zero_spec ["a", "b", "c"] ["a", "x", "c"] rfl).2.2

/-! ## The live reconciler: `Editor.updateDOM` (src/src/editor.ts 399-483)

`updateDOM` compares the previous rendered lines (`before`, read back from
the DOM) with `after = markdown.parse(lines)` and patches the DOM children in
place.  The model below reproduces its loops verbatim; the DOM child list is
the list of per-line HTML strings. -/

/-- JavaScript array read at a signed index: negative indices (like any
out-of-range index) yield `undefined`. -/
def intGet (l : List String) (i : Int) : Option String :=
  if i < 0 then none else l[i.toNat]?

/-- `while (firstChangedLine < len && before[firstChangedLine] === after[firstChangedLine]) firstChangedLine++`. -/
def prefixLoop (before after : List String) (len : Nat) (f : Nat) : Nat :=
  if f < len then
    if before[f]? = after[f]? then prefixLoop before after len (f + 1) else f
  else f
termination_by len - f

/-- `while (-lastChangedLine < len && before[before.length + lastChangedLine] === after[after.length + lastChangedLine]) lastChangedLine--`,
tracked through `j = -lastChangedLine` (so the initial value `-1` becomes `1`). -/
def suffixLoop (before after : List String) (len : Nat) (j : Nat) : Nat :=
  if j < len then
    if intGet before ((before.length : Int) - j) = intGet after ((after.length : Int) - j)
    then suffixLoop before after len (j + 1) else j
  else j
termination_by len - j

/-- `for (let i = hi; i >= lo; i--) if (this.root.children[i]) this.root.children[i].remove()`:
removes the child at each index from `hi` down to `lo`; a missing index is a
no-op, exactly like `List.eraseIdx` past the end. -/
def removeLoop (children : List String) (lo : Nat) (i : Int) : List String :=
  if (lo : Int) ≤ i then removeLoop (children.eraseIdx i.toNat) lo (i - 1) else children
termination_by (i + 1 - lo).toNat
decreasing_by omega

/-- The fragment-building loop
`for (let i = lo; i <= hi; i++) { if (after[i] === undefined) continue; ...append... }`. -/
def fragLoop (after : List String) (i : Nat) (stop : Int) : List String :=
  if (i : Int) ≤ stop then
    (match after[i]? with
     | some line => [line]
     | none => []) ++ fragLoop after (i + 1) stop
  else []
termination_by (stop + 1 - i).toNat
decreasing_by omega

/-- `lastChangedLine = Math.max(len + lastChangedLine, firstChangedLine + Math.abs(delta) - 1)`
after the two scan loops of `Editor.updateDOM` (with `j = -lastChangedLine`
from the suffix loop). -/
def lastChangedLine (before after : List String) : Int :=
  max (((max before.length after.length : Nat) : Int) -
        (suffixLoop before after (max before.length after.length) 1 : Int))
      ((prefixLoop before after (max before.length after.length) 0 : Int) +
        ((((after.length : Int) - (before.length : Int)).natAbs : Nat) : Int) - 1)

/-- The line-level effect of `Editor.updateDOM` (src/src/editor.ts 416-461):
given the previous rendered lines and the newly parsed ones, the resulting
DOM child list.  `delta == 0` patches differing lines in place; otherwise the
prefix/suffix scan determines the changed region, whose children are removed
and replaced by a fragment of the new lines inserted before child
`firstChangedLine`. -/
def updateDOMLines (before after : List String) : List String :=
  let delta : Int := (after.length : Int) - (before.length : Int)
  if delta = 0 then
    (List.range after.length).map fun i =>
      if before[i]? = after[i]? then (before[i]?).getD "" else (after[i]?).getD ""
  else
    let f := prefixLoop before after (max before.length after.length) 0
    let removed := removeLoop before f (lastChangedLine before after - max delta 0)
    let fragment := fragLoop after f (lastChangedLine before after + min delta 0)
    removed.take f ++ fragment ++ removed.drop f

theorem prefixLoop_spec (before after : List String) (len : Nat) :
    ∀ fuel p, len - p ≤ fuel → p ≤ len →
      p ≤ prefixLoop before after len p ∧
      prefixLoop before after len p ≤ len ∧
      (∀ i, p ≤ i → i < prefixLoop before after len p → before[i]? = after[i]?) ∧
      (prefixLoop before after len p = len ∨
        before[prefixLoop before after len p]? ≠ after[prefixLoop before after len p]?) := by
  intro fuel
  induction fuel with
  | zero =>
    intro p hfuel hple
    have hp : p = len := by omega
    rw [prefixLoop, if_neg (by omega)]
    exact ⟨le_refl p, by omega, fun i h1 h2 => absurd h2 (by omega), Or.inl hp⟩
  | succ fuel ih =>
    intro p hfuel hple
    rw [prefixLoop]
    by_cases hlt : p < len
    · rw [if_pos hlt]
      by_cases heq : before[p]? = after[p]?
      · rw [if_pos heq]
        obtain ⟨h1, h2, h3, h4⟩ := ih (p + 1) (by omega) (by omega)
        refine ⟨by omega, h2, fun i hi1 hi2 => ?_, h4⟩
        rcases Nat.eq_or_lt_of_le hi1 with hip | hip
        · exact hip ▸ heq
        · exact h3 i hip hi2
      · rw [if_neg heq]
        exact ⟨le_refl p, by omega, fun i h1 h2 => absurd h2 (by omega), Or.inr heq⟩
    · rw [if_neg hlt]
      have hp : p = len := by omega
      exact ⟨le_refl p, by omega, fun i h1 h2 => absurd h2 (by omega), Or.inl hp⟩

theorem suffixLoop_spec (before after : List String) (len : Nat) :
    ∀ fuel j, len - j ≤ fuel → j ≤ len →
      j ≤ suffixLoop before after len j ∧
      suffixLoop before after len j ≤ len ∧
      (∀ k, j ≤ k → k < suffixLoop before after len j →
        intGet before ((before.length : Int) - k) = intGet after ((after.length : Int) - k)) ∧
      (suffixLoop before after len j = len ∨
        intGet before ((before.length : Int) - suffixLoop before after len j) ≠
          intGet after ((after.length : Int) - suffixLoop before after len j)) := by
  intro fuel
  induction fuel with
  | zero =>
    intro j hfuel hjle
    have hj : j = len := by omega
    rw [suffixLoop, if_neg (by omega)]
    exact ⟨le_refl j, by omega, fun k h1 h2 => absurd h2 (by omega), Or.inl hj⟩
  | succ fuel ih =>
    intro j hfuel hjle
    rw [suffixLoop]
    by_cases hlt : j < len
    · rw [if_pos hlt]
      by_cases heq : intGet before ((before.length : Int) - j) =
          intGet after ((after.length : Int) - j)
      · rw [if_pos heq]
        obtain ⟨h1, h2, h3, h4⟩ := ih (j + 1) (by omega) (by omega)
        refine ⟨by omega, h2, fun k hk1 hk2 => ?_, h4⟩
        rcases Nat.eq_or_lt_of_le hk1 with hkj | hkj
        · exact hkj ▸ heq
        · exact h3 k hkj hk2
      · rw [if_neg heq]
        exact ⟨le_refl j, by omega, fun k h1 h2 => absurd h2 (by omega), Or.inr heq⟩
    · rw [if_neg hlt]
      have hj : j = len := by omega
      exact ⟨le_refl j, by omega, fun k h1 h2 => absurd h2 (by omega), Or.inl hj⟩

theorem eraseIdx_take_of_le {c : List String} {k lo : Nat} (h : lo ≤ k) :
    (c.eraseIdx k).take lo = c.take lo := by
  induction c generalizing k lo with
  | nil => simp [List.eraseIdx]
  | cons x xs ih =>
    cases k with
    | zero =>
      have hlo : lo = 0 := by omega
      simp [hlo]
    | succ k =>
      cases lo with
      | zero => simp
      | succ lo =>
        simp only [List.eraseIdx, List.take_succ_cons, List.cons.injEq, true_and]
        exact ih (by omega)

theorem eraseIdx_drop_self (c : List String) (k : Nat) :
    (c.eraseIdx k).drop k = c.drop (k + 1) := by
  induction c generalizing k with
  | nil => simp [List.eraseIdx]
  | cons x xs ih =>
    cases k with
    | zero => simp
    | succ k =>
      simp only [List.eraseIdx, List.drop_succ_cons]
      exact ih k

theorem removeLoop_spec (lo : Nat) :
    ∀ fuel (c : List String) (i : Int), (i + 1 - lo).toNat ≤ fuel → (lo : Int) - 1 ≤ i →
      removeLoop c lo i = c.take lo ++ c.drop (i + 1).toNat := by
  intro fuel
  induction fuel with
  | zero =>
    intro c i hfuel hge
    have hi : i = (lo : Int) - 1 := by omega
    rw [removeLoop, if_neg (by omega)]
    have : (i + 1).toNat = lo := by omega
    rw [this, List.take_append_drop]
  | succ fuel ih =>
    intro c i hfuel hge
    rw [removeLoop]
    by_cases hloi : (lo : Int) ≤ i
    · rw [if_pos hloi]
      rw [ih (c.eraseIdx i.toNat) (i - 1) (by omega) (by omega)]
      have h1 : ((i - 1) + 1).toNat = i.toNat := by omega
      rw [h1, eraseIdx_take_of_le (by omega), eraseIdx_drop_self]
      have h2 : i.toNat + 1 = (i + 1).toNat := by omega
      rw [h2]
    · rw [if_neg hloi]
      have hi : i = (lo : Int) - 1 := by omega
      have : (i + 1).toNat = lo := by omega
      rw [this, List.take_append_drop]

theorem fragLoop_spec (after : List String) (stop : Int) (hstop : stop < (after.length : Int)) :
    ∀ fuel (i : Nat), (stop + 1 - i).toNat ≤ fuel →
      fragLoop after i stop = (after.drop i).take (stop + 1 - i).toNat := by
  intro fuel
  induction fuel with
  | zero =>
    intro i hfuel
    have hi : ¬ ((i : Int) ≤ stop) := by omega
    rw [fragLoop, if_neg hi]
    have : (stop + 1 - i).toNat = 0 := by omega
    rw [this, List.take_zero]
  | succ fuel ih =>
    intro i hfuel
    rw [fragLoop]
    by_cases hle : (i : Int) ≤ stop
    · rw [if_pos hle]
      have hilt : i < after.length := by omega
      have hget : after[i]? = some (after.get ⟨i, hilt⟩) := by simp
      rw [hget, ih (i + 1) (by omega)]
      have hdrop : after.drop i = after.get ⟨i, hilt⟩ :: after.drop (i + 1) :=
        List.drop_eq_getElem_cons hilt
      rw [hdrop]
      have hnat : (stop + 1 - i).toNat = (stop + 1 - (i + 1)).toNat + 1 := by omega
      rw [hnat, List.take_succ_cons]
      rfl
    · rw [if_neg hle]
      have : (stop + 1 - i).toNat = 0 := by omega
      rw [this, List.take_zero]

theorem removeLoop_eq (c : List String) (lo : Nat) (i : Int) (h : (lo : Int) - 1 ≤ i) :
    removeLoop c lo i = c.take lo ++ c.drop (i + 1).toNat :=
  removeLoop_spec lo ((i + 1 - lo).toNat) c i (le_refl _) h

theorem fragLoop_eq (after : List String) (i : Nat) (stop : Int)
    (h : stop < (after.length : Int)) :
    fragLoop after i stop = (after.drop i).take (stop + 1 - i).toNat :=
  fragLoop_spec after stop h ((stop + 1 - i).toNat) i (le_refl _)

/-- **C1.** Replay law of the line reconciler: for every pair of
rendered-line sequences, replaying `Editor.updateDOM`'s edit script against
`before` — the untouched common prefix and suffix are retained, the computed
changed region's children are removed, and the corresponding new lines are
inserted in their place — reproduces `after` exactly, for equal-length
inputs (`delta == 0`) as well as for pure inserts and pure deletes. -/
theorem updateDOM_replay (before after : List String) :
    updateDOMLines before after = after := by
  by_cases hdz : ((after.length : Int) - (before.length : Int)) = 0
  · simp only [updateDOMLines]
    rw [if_pos hdz]
    apply List.ext_getElem?
    intro i
    by_cases hi : i < after.length
    · have hrange : (List.range after.length)[i]? = some i := by
        simp [hi]
      rw [List.getElem?_map, hrange, Option.map_some']
      have hasome : after[i]? = some (after.get ⟨i, hi⟩) := by simp
      by_cases heq : before[i]? = after[i]?
      · rw [if_pos heq, heq, hasome]
        rfl
      · rw [if_neg heq, hasome]
        rfl
    · have h1 : (List.range after.length)[i]? = none :=
        List.getElem?_eq_none (by simp; omega)
      rw [List.getElem?_map, h1, List.getElem?_eq_none (by omega)]
      rfl
  · simp only [updateDOMLines]
    rw [if_neg hdz]
    have hlen1 : 1 ≤ max before.length after.length := by omega
    obtain ⟨hf0, hflen, hfeq, hfend⟩ :=
      prefixLoop_spec before after (max before.length after.length)
        (max before.length after.length) 0 (by omega) (by omega)
    obtain ⟨hj1, hjlen, hjeq, hjend⟩ :=
      suffixLoop_spec before after (max before.length after.length)
        (max before.length after.length) 1 (by omega) (by omega)
    set f := prefixLoop before after (max before.length after.length) 0 with hfdef
    set j := suffixLoop before after (max before.length after.length) 1 with hjdef
    -- The prefix scan stops no later than the end of the shorter list.
    have hfm : f ≤ min before.length after.length := by
      by_contra hgt
      push_neg at hgt
      have heq := hfeq (min before.length after.length) (by omega) (by omega)
      rcases Nat.lt_or_ge before.length after.length with hlt | hge
      · have h1 : before[min before.length after.length]? = none :=
          List.getElem?_eq_none (by omega)
        rw [h1] at heq
        have := List.getElem?_eq_none_iff.mp heq.symm
        omega
      · have hlt : after.length < before.length := by omega
        have h1 : after[min before.length after.length]? = none :=
          List.getElem?_eq_none (by omega)
        rw [h1] at heq
        have := List.getElem?_eq_none_iff.mp heq
        omega
    -- The suffix scan stops no later than the end of the shorter list.
    have hjm : j ≤ min before.length after.length + 1 := by
      by_contra hgt
      push_neg at hgt
      have heq := hjeq (min before.length after.length + 1) (by omega) (by omega)
      unfold intGet at heq
      rcases Nat.lt_or_ge before.length after.length with hlt | hge
      · rw [if_pos (by omega), if_neg (by omega)] at heq
        have := List.getElem?_eq_none_iff.mp heq.symm
        omega
      · have hlt : after.length < before.length := by omega
        rw [if_neg (by omega), if_pos (by omega)] at heq
        have := List.getElem?_eq_none_iff.mp heq
        omega
    -- The common suffix, in absolute indices.
    have hsfx : ∀ k, 1 ≤ k → k < j →
        before[before.length - k]? = after[after.length - k]? := by
      intro k hk1 hkj
      have heq := hjeq k hk1 hkj
      unfold intGet at heq
      rw [if_neg (by omega), if_neg (by omega)] at heq
      have e1 : ((before.length : Int) - k).toNat = before.length - k := by omega
      have e2 : ((after.length : Int) - k).toNat = after.length - k := by omega
      rw [e1, e2] at heq
      exact heq
    -- The common prefix, as a list equation.
    have htake : before.take f = after.take f := by
      apply List.ext_getElem?
      intro i
      by_cases hif : i < f
      · rw [List.getElem?_take_of_lt hif, List.getElem?_take_of_lt hif]
        exact hfeq i (by omega) hif
      · rw [List.getElem?_eq_none (show (List.take f before).length ≤ i by
            simp [List.length_take]
            omega),
          List.getElem?_eq_none (show (List.take f after).length ≤ i by
            simp [List.length_take]
            omega)]
    have hLCeq : lastChangedLine before after =
        max (((max before.length after.length : Nat) : Int) - (j : Int))
          ((f : Int) + ((((after.length : Int) - (before.length : Int)).natAbs : Nat) : Int)
            - 1) := by
      rw [lastChangedLine, ← hfdef, ← hjdef]
    set LC := lastChangedLine before after with hLCdef
    rw [removeLoop_eq _ _ _ (by omega), fragLoop_eq _ _ _ (by omega)]
    rw [List.take_left' (by simp; omega), List.drop_left' (by simp; omega)]
    rw [htake, ← List.take_add]
    have hdropeq :
        before.drop ((LC - max ((after.length : Int) - (before.length : Int)) 0) + 1).toNat =
        after.drop (f +
          ((LC + min ((after.length : Int) - (before.length : Int)) 0) + 1 - (f : Int)).toNat) := by
      apply List.ext_getElem?
      intro t
      rw [List.getElem?_drop, List.getElem?_drop]
      by_cases hm :
          ((LC - max ((after.length : Int) - (before.length : Int)) 0) + 1).toNat + t <
            before.length
      · have hk := hsfx (before.length -
            (((LC - max ((after.length : Int) - (before.length : Int)) 0) + 1).toNat + t))
          (by omega) (by omega)
        have e1 : before.length - (before.length -
            (((LC - max ((after.length : Int) - (before.length : Int)) 0) + 1).toNat + t)) =
            ((LC - max ((after.length : Int) - (before.length : Int)) 0) + 1).toNat + t := by
          omega
        have e2 : after.length - (before.length -
            (((LC - max ((after.length : Int) - (before.length : Int)) 0) + 1).toNat + t)) =
            f + ((LC + min ((after.length : Int) - (before.length : Int)) 0) + 1 -
              (f : Int)).toNat + t := by
          omega
        rw [e1, e2] at hk
        exact hk
      · rw [List.getElem?_eq_none (by omega), List.getElem?_eq_none (by omega)]
    rw [hdropeq, List.take_append_drop]

/-! ## HTML escaping (`escapeHTML`, src/src/markdown.ts lines 95-100 and
284-289, and src/unnamed/part_004) -/

/-- `str.replaceAll(c, r)` for a single-character needle: every occurrence of
the character is replaced by `r`. -/
def replaceAllChar (s : List Char) (c : Char) (r : List Char) : List Char :=
  s.flatMap fun x => if x = c then r else [x]

/-- `escapeHTML` as written in src/src/markdown.ts lines 95-100 (the earlier
snapshot): `replaceAll('<','&lt;')`, then `'>'`, then `'&'` — the ampersand
pass runs last, over text already containing inserted entities. -/
def escapeHTMLFirst (s : List Char) : List Char :=
  replaceAllChar (replaceAllChar (replaceAllChar s '<' "&lt;".toList) '>' "&gt;".toList)
    '&' "&amp;".toList

/-- `escapeHTML` as written in src/src/markdown.ts lines 284-289 and in
src/unnamed/part_004 (the current version): `'&'` first, then `'<'`, then
`'>'`. -/
def escapeHTML (s : List Char) : List Char :=
  replaceAllChar (replaceAllChar (replaceAllChar s '&' "&amp;".toList) '<' "&lt;".toList)
    '>' "&gt;".toList

/-- The spec's output contract: the three entity replacements applied
simultaneously, so every source character is escaped exactly once. -/
def escapeHTMLSimultaneous (s : List Char) : List Char :=
  s.flatMap fun c =>
    if c = '&' then "&amp;".toList
    else if c = '<' then "&lt;".toList
    else if c = '>' then "&gt;".toList
    else [c]

theorem replaceAllChar_append (a b : List Char) (c : Char) (r : List Char) :
    replaceAllChar (a ++ b) c r = replaceAllChar a c r ++ replaceAllChar b c r := by
  simp [replaceAllChar]

/-- The current (`&`-first) ordering does implement the simultaneous
replacement, because neither inserted entity contains `<` or `>` and the
ampersand pass runs before any entity is inserted. -/
theorem escapeHTML_eq_simultaneous (s : List Char) :
    escapeHTML s = escapeHTMLSimultaneous s := by
  induction s with
  | nil => rfl
  | cons c t ih =>
    have hsplit : escapeHTML (c :: t) = escapeHTML [c] ++ escapeHTML t := by
      show escapeHTML ([c] ++ t) = escapeHTML [c] ++ escapeHTML t
      simp only [escapeHTML, replaceAllChar_append]
    have hsim : escapeHTMLSimultaneous (c :: t) =
        escapeHTMLSimultaneous [c] ++ escapeHTMLSimultaneous t := by
      show escapeHTMLSimultaneous ([c] ++ t) =
        escapeHTMLSimultaneous [c] ++ escapeHTMLSimultaneous t
      simp [escapeHTMLSimultaneous]
    rw [hsplit, hsim, ih]
    congr 1
    by_cases h1 : c = '&'
    · subst h1; decide
    by_cases h2 : c = '<'
    · subst h2; decide
    by_cases h3 : c = '>'
    · subst h3; decide
    simp [escapeHTML, replaceAllChar, escapeHTMLSimultaneous, h1, h2, h3]

/-- **C6.** The earlier `escapeHTML` (markdown.ts 95-100) escapes `'<'` to
`"&amp;lt;"` — the `'&'` pass re-escapes the entity it just produced — while
the claim (and the current `&`-first version, markdown.ts 284-289) requires
`"&lt;"`.  This evaluates both cited definitions at the failing input. -/
theorem escapeHTML_order_bug :
    escapeHTMLFirst "<".toList = "&amp;lt;".toList ∧
    escapeHTML "<".toList = "&lt;".toList ∧
    escapeHTMLSimultaneous "<".toList = "&lt;".toList := by
  refine ⟨by decide, by decide, by decide⟩

/-! ## Line lookup (`Editor.line` / `Editor.lineAt`, src/src/editor.ts
574-612) -/

/-- The record returned by `Editor.line`/`Editor.lineAt` (`Line` in
src/src/editor.ts).  The source fields `from`/`end` are Lean keywords and are
embedded as `fromPos`/`endPos`. -/
structure Line where
  num : Nat
  fromPos : Nat
  endPos : Nat
  text : String
  deriving Repr, DecidableEq

/-- `get content() { return this.lines.join('\n') }`. -/
def editorContent (lines : List String) : String :=
  String.intercalate "\n" lines

/-- `Editor.line(num)` (src/src/editor.ts 579-587): `RangeError` iff
`num < 0 || num >= this.lines.length` (the thrown `RangeError` is modelled as
`Except.error ()`), otherwise the line's number, start offset
(`slice(0, num).reduce((acc, line) => acc + line.length + 1, 0)`), end offset
and text. -/
def editorLine (lines : List String) (num : Int) : Except Unit Line :=
  if num < 0 ∨ (lines.length : Int) ≤ num then
    Except.error ()
  else
    Except.ok ⟨num.toNat,
      (lines.take num.toNat).foldl (fun acc line => acc + line.length + 1) 0,
      (lines.take num.toNat).foldl (fun acc line => acc + line.length + 1) 0 +
        (lines.getD num.toNat "").length,
      lines.getD num.toNat ""⟩

/-- The scan loop of `Editor.lineAt`:
`for (const line of this.lines) { if (from + line.length >= pos) break; from += line.length + 1; num++ }`. -/
def lineAtLoop (pos : Int) : List String → Nat → Nat → Nat × Nat
  | [], num, fromPos => (num, fromPos)
  | line :: rest, num, fromPos =>
    if pos ≤ (fromPos : Int) + line.length then (num, fromPos)
    else lineAtLoop pos rest (num + 1) (fromPos + line.length + 1)

/-- `Editor.lineAt(pos)` (src/src/editor.ts 594-612): `RangeError` iff
`pos < 0 || pos > this.content.length` (modelled as `Except.error ()`),
otherwise the first line whose end offset reaches `pos`. -/
def editorLineAt (lines : List String) (pos : Int) : Except Unit Line :=
  if pos < 0 ∨ ((editorContent lines).length : Int) < pos then
    Except.error ()
  else
    Except.ok ⟨(lineAtLoop pos lines 0 0).1,
      (lineAtLoop pos lines 0 0).2,
      (lineAtLoop pos lines 0 0).2 + (lines.getD (lineAtLoop pos lines 0 0).1 "").length,
      lines.getD (lineAtLoop pos lines 0 0).1 ""⟩

theorem foldl_offset (ls : List String) (a : Nat) :
    ls.foldl (fun acc line => acc + line.length + 1) a =
      a + (ls.map (fun l => l.length + 1)).sum := by
  induction ls generalizing a with
  | nil => simp
  | cons l rest ih =>
    simp only [List.foldl_cons, List.map_cons, List.sum_cons, ih]
    omega

theorem intercalate_go_length (s : String) :
    ∀ (as : List String) (acc : String),
      (String.intercalate.go acc s as).length =
        acc.length + (as.map (fun a => s.length + a.length)).sum := by
  intro as
  induction as with
  | nil =>
    intro acc
    simp [String.intercalate.go]
  | cons a t ih =>
    intro acc
    simp [String.intercalate.go, ih, String.length_append]
    ring

theorem sum_map_length_succ (tl : List String) :
    (tl.map (fun x => x.length + 1)).sum = (tl.map String.length).sum + tl.length := by
  induction tl with
  | nil => simp
  | cons a t ih =>
    simp only [List.map_cons, List.sum_cons, List.length_cons, ih]
    omega

theorem length_editorContent (l : String) (rest : List String) :
    (editorContent (l :: rest)).length =
      l.length + (rest.map String.length).sum + rest.length := by
  have h1 : editorContent (l :: rest) = String.intercalate.go l "\n" rest := rfl
  rw [h1, intercalate_go_length]
  have h2 : "\n".length = 1 := rfl
  rw [h2]
  have h3 : (rest.map (fun a => 1 + a.length)).sum =
      (rest.map (fun x => x.length + 1)).sum := by
    have : (fun a : String => 1 + a.length) = (fun x : String => x.length + 1) := by
      funext x
      omega
    rw [this]
  rw [h3, sum_map_length_succ]
  omega

theorem lineAtLoop_spec (pos : Int) :
    ∀ (ls : List String) (num fromPos : Nat),
      ls ≠ [] →
      (fromPos : Int) ≤ pos →
      pos ≤ (fromPos : Int) + ((ls.map String.length).sum : Int) + (ls.length : Int) - 1 →
      ∃ k, k < ls.length ∧
        lineAtLoop pos ls num fromPos =
          (num + k, fromPos + ((ls.take k).map (fun l => l.length + 1)).sum) ∧
        ((fromPos + ((ls.take k).map (fun l => l.length + 1)).sum : Nat) : Int) ≤ pos ∧
        pos ≤ ((fromPos + ((ls.take k).map (fun l => l.length + 1)).sum : Nat) : Int)
          + ((ls.getD k "").length : Int) := by
  intro ls
  induction ls with
  | nil =>
    intro num fromPos hne
    exact absurd rfl hne
  | cons line rest ih =>
    intro num fromPos hne hlo hhi
    simp only [List.map_cons, List.sum_cons, List.length_cons] at hhi
    push_cast at hhi
    by_cases hbr : pos ≤ (fromPos : Int) + line.length
    · refine ⟨0, by simp, ?_, by simpa using hlo, ?_⟩
      · simp only [lineAtLoop, if_pos hbr, List.take_zero, List.map_nil, List.sum_nil,
          Nat.add_zero]
      · simpa using hbr
    · push_neg at hbr
      have hrest_ne : rest ≠ [] := by
        intro h
        subst h
        simp at hhi
        omega
      obtain ⟨k, hk, heq, hlow, hhigh⟩ :=
        ih (num + 1) (fromPos + line.length + 1) hrest_ne (by push_cast; omega)
          (by push_cast; omega)
      refine ⟨k + 1, by simpa using hk, ?_, ?_, ?_⟩
      · simp only [lineAtLoop, if_neg (by omega : ¬ pos ≤ (fromPos : Int) + line.length)]
        rw [heq]
        refine Prod.ext (by omega) ?_
        simp only [List.take_succ_cons, List.map_cons, List.sum_cons]
        omega
      · simp only [List.take_succ_cons, List.map_cons, List.sum_cons]
        push_cast at hlow ⊢
        omega
      · simp only [List.take_succ_cons, List.map_cons, List.sum_cons]
        have hgd : (line :: rest).getD (k + 1) "" = rest.getD k "" := by
          simp [List.getD]
        rw [hgd]
        push_cast at hhigh ⊢
        omega

/-- **C7.** `line(num)` fails with the out-of-range error iff `num < 0` or
`num >= lineCount`, and `lineAt(pos)` fails with it iff `pos < 0` or
`pos > content.length`; every in-range call returns the line's number, start
offset, end offset and text (`lineAt` returning exactly what `line` returns
for the found line number, with `from <= pos <= end`).  Both source methods
only read `this.lines`; the embedding is accordingly a pure function of that
state, so no editor state changes on either success or error. -/
theorem editorLine_lineAt_spec (lines : List String) (hne : lines ≠ []) (num pos : Int) :
    ((editorLine lines num = Except.error ()) ↔ (num < 0 ∨ (lines.length : Int) ≤ num)) ∧
    ((editorLineAt lines pos = Except.error ()) ↔
      (pos < 0 ∨ ((editorContent lines).length : Int) < pos)) ∧
    (∀ l, editorLine lines num = Except.ok l →
        l.num = num.toNat ∧ l.text = lines.getD l.num "" ∧
        l.fromPos = ((lines.take l.num).map (fun s => s.length + 1)).sum ∧
        l.endPos = l.fromPos + l.text.length) ∧
    (∀ l, editorLineAt lines pos = Except.ok l →
        l.num < lines.length ∧ editorLine lines (l.num : Int) = Except.ok l ∧
        (l.fromPos : Int) ≤ pos ∧ pos ≤ (l.endPos : Int)) := by
  obtain ⟨hd, tl, rfl⟩ : ∃ hd tl, lines = hd :: tl := by
    cases lines with
    | nil => exact absurd rfl hne
    | cons hd tl => exact ⟨hd, tl, rfl⟩
  have hcl : (editorContent (hd :: tl)).length =
      hd.length + (tl.map String.length).sum + tl.length := length_editorContent hd tl
  refine ⟨?_, ?_, ?_, ?_⟩
  · by_cases hg : num < 0 ∨ (((hd :: tl).length : Nat) : Int) ≤ num
    · rw [editorLine, if_pos hg]
      simpa using hg
    · rw [editorLine, if_neg hg]
      constructor
      · intro hcontra
        exact absurd hcontra (by simp)
      · intro hcontra
        exact absurd hcontra hg
  · by_cases hg : pos < 0 ∨ ((editorContent (hd :: tl)).length : Int) < pos
    · rw [editorLineAt, if_pos hg]
      simpa using hg
    · rw [editorLineAt, if_neg hg]
      constructor
      · intro hcontra
        exact absurd hcontra (by simp)
      · intro hcontra
        exact absurd hcontra hg
  · intro l hl
    rw [editorLine] at hl
    by_cases hg : num < 0 ∨ (((hd :: tl).length : Nat) : Int) ≤ num
    · rw [if_pos hg] at hl
      exact absurd hl (by simp)
    · rw [if_neg hg] at hl
      simp only [Except.ok.injEq] at hl
      subst hl
      refine ⟨rfl, rfl, ?_, rfl⟩
      show ((hd :: tl).take num.toNat).foldl (fun acc line => acc + line.length + 1) 0 =
        (((hd :: tl).take num.toNat).map (fun s => s.length + 1)).sum
      rw [foldl_offset]
      omega
  · intro l hl
    rw [editorLineAt] at hl
    by_cases hg : pos < 0 ∨ ((editorContent (hd :: tl)).length : Int) < pos
    · rw [if_pos hg] at hl
      exact absurd hl (by simp)
    · rw [if_neg hg] at hl
      push_neg at hg
      obtain ⟨hpos0, hposle⟩ := hg
      obtain ⟨k, hk, heq, hlow, hhigh⟩ :=
        lineAtLoop_spec pos (hd :: tl) 0 0 hne (by omega)
          (by
            have hsum : ((hd :: tl).map String.length).sum =
                hd.length + (tl.map String.length).sum := by simp
            have hlen2 : (hd :: tl).length = tl.length + 1 := by simp
            omega)
      rw [heq] at hl
      simp only [Except.ok.injEq] at hl
      subst hl
      simp only [Nat.zero_add]
      refine ⟨by simpa using hk, ?_, by simpa using hlow, by simpa using hhigh⟩
      rw [editorLine, if_neg (by
        push_neg
        refine ⟨by omega, by omega⟩)]
      simp only [Except.ok.injEq, Line.mk.injEq, Int.toNat_natCast]
      refine ⟨trivial, ?_, ?_, trivial⟩
      · rw [foldl_offset]
        omega
      · rw [foldl_offset]
        omega

/-- Witness for C7: the two-line document `["ab", ""]`, `lineAt` at the very
end of the content (in range, hence no error) and `line` just past the last
line (out of range, hence the error). -/
theorem editorLine_lineAt_spec_witness :
    editorLineAt ["ab", ""] 3 ≠ Except.error () ∧
    editorLine ["ab", ""] 2 = Except.error () := by
  constructor
  · intro hcontra
    have h := (editorLine_lineAt_spec ["ab", ""] (by simp) 2 3).2.1.mp hcontra
    revert h
    decide
  · exact (editorLine_lineAt_spec ["ab", ""] (by simp) 2 3).1.mpr (by decide)

/-! ## The block classifier: `MarkdownParser.parse` (src/src/markdown.ts
lines 23-79 and 214-268)

A line-grammar entry is either a regex line rule (`{regex, replace}`) or a
block rule (`{open, close, replace}`).  Regex `exec` calls and rule callbacks
are embedded as functions; `μ` is the type of the captured match data
(`RegExpExecArray`).  The keyed object `this.lineGrammar` iterates in
insertion order, embedded as an association list. -/

inductive GrammarRule (μ : Type) where
  | lineRule (exec : String → Option μ) (replaceMatch : μ → String)
  | blockRule (openLine : String → Option (μ × String))
      (closeLine : String → μ → Option String) (replaceLine : String → String)

/-- `this.lineGrammar[key]`. -/
def lookupRule {μ : Type} (g : List (String × GrammarRule μ)) (key : String) :
    Option (GrammarRule μ) :=
  (g.find? (fun p => p.1 == key)).map Prod.snd

/-- The body of the scanning `for (const type in this.lineGrammar)` loop:
the first rule whose regex matches (or whose `open` succeeds) wins; when none
does, the line keeps the default `parseInline(line)` HTML and a `null` type
tag.  Returns `(new open block, html, lineType)`. -/
def scanRules {μ : Type} (pi : String → String) (line : String) :
    List (String × GrammarRule μ) → Option (String × μ) × String × Option String
  | [] => (none, pi line, none)
  | (key, GrammarRule.lineRule exec replaceMatch) :: rest =>
    match exec line with
    | some m => (none, replaceMatch m, some key)
    | none => scanRules pi line rest
  | (key, GrammarRule.blockRule openLine _ _) :: rest =>
    match openLine line with
    | some (m, replacement) => (some (key, m), replacement, some key)
    | none => scanRules pi line rest

/-- One iteration of `MarkdownParser.parse`'s line loop
(src/src/markdown.ts 30-76).  With an open block, only
`this.lineGrammar[openType]` is consulted: a truthy `close` result is emitted
and the block closes (a falsy one — `false`, or JavaScript-falsy `''` — keeps
the block open and emits `rule.replace(line)`); either way the line is tagged
with the open block's key.  With no open block, the rules are scanned in
priority order.  The `as BlockRule` cast in the source is unchecked; the
fallback arm mirrors its unreachability (`openType` is only ever set to the
key of a block rule present in the immutable grammar). -/
def parseStep {μ : Type} (g : List (String × GrammarRule μ)) (pi : String → String)
    (st : Option (String × μ)) (line : String) :
    Option (String × μ) × String × Option String :=
  match st with
  | some (key, openMatch) =>
    match lookupRule g key with
    | some (GrammarRule.blockRule _ closeLine replaceLine) =>
      match closeLine line openMatch with
      | some closed =>
        if closed = "" then (some (key, openMatch), replaceLine line, some key)
        else (none, closed, some key)
      | none => (some (key, openMatch), replaceLine line, some key)
    | _ => (none, pi line, some key)
  | none => scanRules pi line g

/-- The per-call accumulators of `parse`, recursion-style: the pushed HTML
lines and the pushed line-type tags. -/
def parseLoop {μ : Type} (g : List (String × GrammarRule μ)) (pi : String → String) :
    Option (String × μ) → List String → List String × List (Option String)
  | _, [] => ([], [])
  | st, line :: rest =>
    let r := parseStep g pi st line
    let t := parseLoop g pi r.1 rest
    (r.2.1 :: t.1, r.2.2 :: t.2)

/-- The mutable fields of a `MarkdownParser` instance: `this.lines` and
`this.lineTypes`. -/
structure MDState where
  lines : List String
  lineTypes : List (Option String)
  deriving Repr, DecidableEq

/-- The line loop of `parse`, threading the instance state and pushing one
HTML line and one type tag per input line. -/
def parseGo {μ : Type} (g : List (String × GrammarRule μ)) (pi : String → String) :
    Option (String × μ) → MDState → List String → MDState
  | _, s, [] => s
  | st, s, line :: rest =>
    let r := parseStep g pi st line
    parseGo g pi r.1 ⟨s.lines ++ [r.2.1], s.lineTypes ++ [r.2.2]⟩ rest

/-- `MarkdownParser.parse(lines)` (src/src/markdown.ts 23-79): resets
`this.lines`/`this.lineTypes` (`openType`/`openMatch` are per-call locals
starting at `null`) and runs the line loop. -/
def parse {μ : Type} (g : List (String × GrammarRule μ)) (pi : String → String)
    (s : MDState) (input : List String) : MDState :=
  parseGo g pi none { s with lines := [], lineTypes := [] } input

/-- The type-tag assignment on its own, the shape the spec describes: the
open block's key for every line of an open block including its closing line,
otherwise the key of the first matching rule in priority order, otherwise
the default (`null`, which the default grammar's catch-all `Paragraph` rule
prevents). -/
def classifyTags {μ : Type} (g : List (String × GrammarRule μ)) :
    Option (String × μ) → List String → List (Option String)
  | _, [] => []
  | st, line :: rest =>
    let r := parseStep g (fun _ => "") st line
    r.2.2 :: classifyTags g r.1 rest

theorem parseStep_pi_independent {μ : Type} (g : List (String × GrammarRule μ))
    (pi pi' : String → String) (st : Option (String × μ)) (line : String) :
    (parseStep g pi st line).1 = (parseStep g pi' st line).1 ∧
    (parseStep g pi st line).2.2 = (parseStep g pi' st line).2.2 := by
  match st with
  | some (key, openMatch) =>
    rw [parseStep, parseStep]
    rcases lookupRule g key with _ | r
    · exact ⟨rfl, rfl⟩
    rcases r with ⟨e, rm⟩ | ⟨o, c, rl⟩
    · exact ⟨rfl, rfl⟩
    rcases c line openMatch with _ | closed
    · exact ⟨rfl, rfl⟩
    by_cases hc : closed = "" <;> simp [hc]
  | none =>
    rw [parseStep, parseStep]
    induction g with
    | nil => exact ⟨rfl, rfl⟩
    | cons p rest ih =>
      rcases p with ⟨key, ⟨e, rm⟩ | ⟨o, c, rl⟩⟩
      · rw [scanRules, scanRules]
        rcases e line with _ | m
        · exact ih
        · exact ⟨rfl, rfl⟩
      · rw [scanRules, scanRules]
        rcases o line with _ | ⟨m, rep⟩
        · exact ih
        · exact ⟨rfl, rfl⟩

theorem parseLoop_tags {μ : Type} (g : List (String × GrammarRule μ))
    (pi : String → String) :
    ∀ (input : List String) (st : Option (String × μ)),
      (parseLoop g pi st input).2 = classifyTags g st input := by
  intro input
  induction input with
  | nil => intro st; rfl
  | cons line rest ih =>
    intro st
    rw [parseLoop, classifyTags]
    obtain ⟨h1, h2⟩ := parseStep_pi_independent g pi (fun _ => "") st line
    simp only []
    rw [h2, h1, ih]

theorem parseGo_append {μ : Type} (g : List (String × GrammarRule μ))
    (pi : String → String) :
    ∀ (input : List String) (st : Option (String × μ)) (ls : List String)
      (ts : List (Option String)),
      parseGo g pi st ⟨ls, ts⟩ input =
        ⟨ls ++ (parseLoop g pi st input).1, ts ++ (parseLoop g pi st input).2⟩ := by
  intro input
  induction input with
  | nil =>
    intro st ls ts
    simp [parseGo, parseLoop]
  | cons line rest ih =>
    intro st ls ts
    rw [parseGo, parseLoop]
    rw [ih]
    simp

theorem parseLoop_length {μ : Type} (g : List (String × GrammarRule μ))
    (pi : String → String) :
    ∀ (input : List String) (st : Option (String × μ)),
      (parseLoop g pi st input).1.length = input.length ∧
      (parseLoop g pi st input).2.length = input.length := by
  intro input
  induction input with
  | nil => intro st; exact ⟨rfl, rfl⟩
  | cons line rest ih =>
    intro st
    rw [parseLoop]
    obtain ⟨h1, h2⟩ := ih (parseStep g pi st line).1
    simp only [List.length_cons]
    exact ⟨by rw [h1], by rw [h2]⟩

/-- **C3.** While a block rule's `open` has succeeded and its `close` has
not yet matched, `parse` consults only that rule: a (truthy) close rendering
is emitted with the open key as the line's final tag and the parser returns
to scanning; otherwise the rule's middle `replace(line)` is emitted, the
line is tagged with the same key, and the block stays open.  No other rule
is consulted: any grammar (and any inline formatter) agreeing with `g` on
the open key steps identically, even if its other rules would match. -/
theorem parseStep_inBlock_spec {μ : Type} (g g' : List (String × GrammarRule μ))
    (pi pi' : String → String) (key : String) (cap : μ) (line : String)
    (o : String → Option (μ × String)) (c : String → μ → Option String)
    (r : String → String)
    (hrule : lookupRule g key = some (GrammarRule.blockRule o c r)) :
    (∀ s, c line cap = some s → s ≠ "" →
        parseStep g pi (some (key, cap)) line = (none, s, some key)) ∧
    (c line cap = none →
        parseStep g pi (some (key, cap)) line = (some (key, cap), r line, some key)) ∧
    (lookupRule g' key = lookupRule g key →
        parseStep g' pi' (some (key, cap)) line = parseStep g pi (some (key, cap)) line) := by
  refine ⟨?_, ?_, ?_⟩
  · intro s hs hne
    rw [parseStep, hrule]
    dsimp only
    rw [hs]
    dsimp only
    rw [if_neg hne]
  · intro hnone
    rw [parseStep, hrule]
    dsimp only
    rw [hnone]
  · intro hagree
    rw [parseStep, parseStep, hagree, hrule]

/-! ## The default line grammar (src/src/markdown.ts 142-198): `ATXHeading`,
`CodeBlock`, `BlockQuote` and the catch-all `Paragraph`.  The hand-translated
regexes are noted on each matcher; captures are embedded as a pair
`(mark, text-or-lang)`. -/

/-- JavaScript's `\s` character class. -/
def jsWhitespace (c : Char) : Bool :=
  c == ' ' || c == '\t' || c == '\n' || c == '\x0b' || c == '\x0c' || c == '\r' ||
  c == ' ' || c == ' ' || (0x2000 ≤ c.toNat && c.toNat ≤ 0x200a) ||
  c == ' ' || c == ' ' || c == ' ' || c == ' ' || c == '　' ||
  c == '﻿'

/-- String-level wrapper over the character-level `escapeHTML`. -/
def escapeHTMLStr (s : String) : String :=
  (escapeHTML s.toList).asString

/-- `fix(line)` (src/src/markdown.ts 271-279): `<br>` for an empty line,
otherwise the escaped line. -/
def fix (line : String) : String :=
  if line.length = 0 then "<br>" else escapeHTMLStr line

/-- Captured match data for the default grammar: the `mark` group and the
`text`/`lang` group. -/
def Cap : Type := String × String

instance : DecidableEq Cap := fun a b =>
  inferInstanceAs (Decidable (Prod.mk a.1 a.2 = Prod.mk b.1 b.2))

/-- `/^(?<mark>#{1,6})(?<text>\s.*)/`: one to six leading `#` followed by a
whitespace character; `mark` is the hash run, `text` the rest including the
whitespace. -/
def atxHeadingExec (line : String) : Option Cap :=
  let l := line.toList
  let hashes := (l.takeWhile (fun c => c == '#')).length
  let wsAfter : Bool := match l[hashes]? with | some c => jsWhitespace c | none => false
  if 1 ≤ hashes ∧ hashes ≤ 6 ∧ wsAfter then
    some ((l.take hashes).asString, (l.drop hashes).asString)
  else
    none

def atxReplace (m : Cap) : String :=
  let lvl := toString m.1.length
  "<h" ++ lvl ++ "><span class=\"md-mark\">" ++ m.1 ++ "</span>" ++
    escapeHTMLStr m.2 ++ "</h" ++ lvl ++ ">"

/-- `CodeBlock.open`: `/^(?<mark>`{3,})(?<lang>.*)/` — at least three leading
backticks (`mark` is the whole run), rest is `lang`. -/
def codeBlockOpen (line : String) : Option (Cap × String) :=
  let l := line.toList
  let ticks := (l.takeWhile (fun c => c == '`')).length
  if 3 ≤ ticks then
    let mark := (l.take ticks).asString
    let lang := escapeHTMLStr (l.drop ticks).asString
    some (((l.take ticks).asString, (l.drop ticks).asString),
      "<code><span class=\"md-mark\">" ++ mark ++ "</span>" ++
        (if lang.length > 0 then "<span class=\"md-code-lang\">" ++ lang ++ "</span>"
         else "") ++ "</code>")
  else
    none

/-- `CodeBlock.close`: `RegExp('^(?<mark>\`{' + openMark.length + ',})')` —
a leading backtick run at least as long as the opening mark. -/
def codeBlockClose (line : String) (openMatch : Cap) : Option String :=
  let l := line.toList
  let ticks := (l.takeWhile (fun c => c == '`')).length
  if openMatch.1.length ≤ ticks then
    some ("<code><span class=\"md-mark\">" ++ (l.take ticks).asString ++ "</span></code>")
  else
    none

/-- `CodeBlock.replace` — the middle-of-block rendering. -/
def codeBlockReplace (line : String) : String :=
  "<code>" ++ fix line ++ "</code>"

/-- `/^(?<mark>>)(?<text>.*)/`. -/
def blockQuoteExec (line : String) : Option Cap :=
  match line.toList with
  | '>' :: rest => some (">", rest.asString)
  | _ => none

def blockQuoteReplace (m : Cap) : String :=
  "<div class=\"md-quote\"><span class=\"md-mark\">" ++ m.1 ++ "</span>" ++
    escapeHTMLStr m.2 ++ "</div>"

/-- `/.*/` — always matches, with `match[0]` the whole line. -/
def paragraphExec (line : String) : Option Cap :=
  some (line, "")

def paragraphReplace (m : Cap) : String :=
  fix m.1

/-- `defaultLineGrammar` of src/src/markdown.ts 142-198, in declaration
order. -/
def defaultLineGrammar : List (String × GrammarRule Cap) :=
  [("ATXHeading", GrammarRule.lineRule atxHeadingExec atxReplace),
   ("CodeBlock", GrammarRule.blockRule codeBlockOpen codeBlockClose codeBlockReplace),
   ("BlockQuote", GrammarRule.lineRule blockQuoteExec blockQuoteReplace),
   ("Paragraph", GrammarRule.lineRule paragraphExec paragraphReplace)]

theorem parseStep_inBlock_tag {μ : Type} (g : List (String × GrammarRule μ))
    (pi : String → String) (key : String) (cap : μ) (line : String) :
    (parseStep g pi (some (key, cap)) line).2.2 = some key := by
  rw [parseStep]
  rcases lookupRule g key with _ | r
  · rfl
  rcases r with ⟨e, rm⟩ | ⟨o, c, rl⟩
  · rfl
  dsimp only
  rcases c line cap with _ | closed
  · rfl
  dsimp only
  by_cases hc : closed = "" <;> simp [hc]

theorem scan_default_tag_some (pi : String → String) (line : String) :
    (parseStep defaultLineGrammar pi none line).2.2 ≠ none := by
  rw [parseStep]
  show (scanRules pi line defaultLineGrammar).2.2 ≠ none
  rw [defaultLineGrammar]
  rw [scanRules]
  rcases atxHeadingExec line with _ | m1
  · rw [scanRules]
    rcases codeBlockOpen line with _ | m2
    · rw [scanRules]
      rcases blockQuoteExec line with _ | m3
      · rw [scanRules, paragraphExec]
        simp
      · simp
    · simp
  · simp

theorem classify_default_all_some :
    ∀ (input : List String) (st : Option (String × Cap)),
      ∀ ty ∈ classifyTags defaultLineGrammar st input, ty ≠ none := by
  intro input
  induction input with
  | nil =>
    intro st ty hty
    simp [classifyTags] at hty
  | cons line rest ih =>
    intro st ty hty
    rw [classifyTags] at hty
    rcases List.mem_cons.mp hty with rfl | h
    · rcases st with _ | ⟨key, cap⟩
      · exact scan_default_tag_some _ line
      · rw [parseStep_inBlock_tag]
        simp
    · exact ih _ ty h

/-- **C8.** After `parse(lines)` returns, the per-line type-tag sequence has
exactly one entry per input line; each entry is the open block's key while a
block is open (its closing line included), otherwise the key of the first
matching line rule in priority order (`classifyTags` is that assignment by
definition), and with the default grammar's catch-all `Paragraph` rule no
line is left untagged. -/
theorem parse_default_tags_spec (pi : String → String) (s : MDState)
    (input : List String) :
    (parse defaultLineGrammar pi s input).lineTypes.length = input.length ∧
    (parse defaultLineGrammar pi s input).lineTypes =
      classifyTags defaultLineGrammar none input ∧
    (∀ ty ∈ (parse defaultLineGrammar pi s input).lineTypes, ty ≠ none) := by
  have hgo : parse defaultLineGrammar pi s input =
      ⟨(parseLoop defaultLineGrammar pi none input).1,
       (parseLoop defaultLineGrammar pi none input).2⟩ := by
    rw [parse]
    have := parseGo_append defaultLineGrammar pi input none [] []
    simpa using this
  rw [hgo]
  refine ⟨(parseLoop_length defaultLineGrammar pi input none).2, ?_, ?_⟩
  · exact parseLoop_tags defaultLineGrammar pi input none
  · rw [parseLoop_tags defaultLineGrammar pi input none]
    exact classify_default_all_some input none

/-- **C9.** `parse` is idempotent on its own state: it resets `this.lines`
and `this.lineTypes` on entry (and `openType`/`openMatch` are per-call
locals), so a second call with the same input — or a call from any other
carried state — produces the identical `MDState`. -/
theorem parse_idempotent {μ : Type} (g : List (String × GrammarRule μ))
    (pi : String → String) (s s' : MDState) (input : List String) :
    parse g pi (parse g pi s input) input = parse g pi s input ∧
    parse g pi s input = parse g pi s' input :=
  ⟨rfl, rfl⟩

/-- Witness for C3: inside an open ```` ```js ```` code block, a plain text
line is rendered by the rule's own middle `replace` and keeps the block open,
and a closing backtick fence emits the close rendering and returns to
scanning — in both cases tagged `CodeBlock`. -/
theorem parseStep_inBlock_spec_witness :
    parseStep defaultLineGrammar (fun s => s)
        (some ("CodeBlock", (("```", "js") : Cap))) "let x" =
      (some ("CodeBlock", (("```", "js") : Cap)), "<code>let x</code>", some "CodeBlock") ∧
    parseStep defaultLineGrammar (fun s => s)
        (some ("CodeBlock", (("```", "js") : Cap))) "```" =
      (none, "<code><span class=\"md-mark\">```</span></code>", some "CodeBlock") := by
  have h1 := parseStep_inBlock_spec defaultLineGrammar defaultLineGrammar
    (fun s => s) (fun s => s) "CodeBlock" (("```", "js") : Cap) "let x"
    codeBlockOpen codeBlockClose codeBlockReplace (by rfl)
  have h2 := parseStep_inBlock_spec defaultLineGrammar defaultLineGrammar
    (fun s => s) (fun s => s) "CodeBlock" (("```", "js") : Cap) "```"
    codeBlockOpen codeBlockClose codeBlockReplace (by rfl)
  constructor
  · rw [h1.2.1 (by decide)]
    decide
  · rw [h2.1 "<code><span class=\"md-mark\">```</span></code>" (by decide) (by decide)]

/-! ## Configuration merge: `defu` (src/src/utils.ts 9-31 and 40-62)

JavaScript values are embedded as a JSON-like tree; `undefined` is the
absence of a key (a failed lookup). -/

inductive JValue where
  | null
  | bool (b : Bool)
  | num (n : Int)
  | str (s : String)
  | arr (elems : List JValue)
  | obj (fields : List (String × JValue))

/-- `isPlainObject(obj)`: truthy, `typeof obj === 'object'`, and constructed
by `Object` — so `null` (falsy) and arrays (constructor `Array`) are not
plain objects. -/
def isPlainObject : JValue → Bool
  | JValue.obj _ => true
  | _ => false

/-- `obj[key]` on a JavaScript object: the value at the key, `undefined`
(`none`) when absent. -/
def objGet : List (String × JValue) → String → Option JValue
  | [], _ => none
  | (k, w) :: rest, key => if k == key then some w else objGet rest key

/-- `obj[key] = v`: updates the existing binding in place, else appends the
key at the end (JavaScript property insertion order). -/
def objSet : List (String × JValue) → String → JValue → List (String × JValue)
  | [], key, v => [(key, v)]
  | (k, w) :: rest, key, v =>
    if k == key then (k, v) :: rest else (k, w) :: objSet rest key v

/-- The `for (const key in defaults)` loop of `defu`: `__proto__` and
`constructor` keys are skipped; a key that is `undefined` or `null` in `obj`
is filled from `defaults`; a key that is a plain object on both sides is
merged recursively; anything else is left alone. -/
def defuFields : List (String × JValue) → List (String × JValue) → List (String × JValue)
  | o, [] => o
  | o, (key, dv) :: rest =>
    if key == "__proto__" || key == "constructor" then
      defuFields o rest
    else
      match objGet o key, dv with
      | none, _ => defuFields (objSet o key dv) rest
      | some JValue.null, _ => defuFields (objSet o key dv) rest
      | some (JValue.obj vf), JValue.obj df =>
          defuFields (objSet o key (JValue.obj (defuFields vf df))) rest
      | some _, _ => defuFields o rest

/-- `defu(obj, defaults)` (src/src/utils.ts 9-27): an `undefined` object
becomes `{}` first. -/
def defu (o : Option (List (String × JValue))) (d : List (String × JValue)) :
    List (String × JValue) :=
  defuFields (o.getD []) d

theorem objGet_objSet_self (o : List (String × JValue)) (k : String) (v : JValue) :
    objGet (objSet o k v) k = some v := by
  induction o with
  | nil =>
    rw [objSet, objGet, if_pos (by simp)]
  | cons p rest ih =>
    rcases p with ⟨k1, w⟩
    rw [objSet]
    by_cases h : (k1 == k) = true
    · rw [if_pos h, objGet, if_pos h]
    · rw [if_neg h, objGet, if_neg h]
      exact ih

theorem objGet_objSet_ne (o : List (String × JValue)) (k k' : String) (v : JValue)
    (h : k ≠ k') :
    objGet (objSet o k v) k' = objGet o k' := by
  induction o with
  | nil =>
    rw [objSet]
    show (if (k == k') = true then some v else objGet [] k') = objGet [] k'
    rw [if_neg (by simpa using h)]
  | cons p rest ih =>
    rcases p with ⟨k1, w⟩
    rw [objSet]
    by_cases h1 : (k1 == k) = true
    · have hk1 : k1 = k := by simpa using h1
      have hne' : ¬ (k1 == k') = true := by
        simp only [hk1, beq_iff_eq]
        exact h
      rw [if_pos h1, objGet, objGet, if_neg hne', if_neg hne']
    · rw [if_neg h1, objGet, objGet]
      by_cases h2 : (k1 == k') = true
      · rw [if_pos h2, if_pos h2]
      · rw [if_neg h2, if_neg h2]
        exact ih

theorem defuFields_cons_shape (o : List (String × JValue)) (key : String) (dv : JValue)
    (rest : List (String × JValue)) :
    ∃ o', defuFields o ((key, dv) :: rest) = defuFields o' rest ∧
      (∀ k, key ≠ k → objGet o' k = objGet o k) ∧
      ((key == "__proto__" || key == "constructor") = true → o' = o) ∧
      ((key == "__proto__" || key == "constructor") = false →
        (objGet o key = none ∨ objGet o key = some JValue.null) →
        objGet o' key = some dv) ∧
      ((key == "__proto__" || key == "constructor") = false →
        ∀ vf df, dv = JValue.obj df → objGet o key = some (JValue.obj vf) →
        objGet o' key = some (JValue.obj (defuFields vf df))) := by
  by_cases hskip : (key == "__proto__" || key == "constructor") = true
  · refine ⟨o, ?_, fun k _ => rfl, fun _ => rfl, ?_, ?_⟩
    · rw [defuFields.eq_def]
      dsimp only
      rw [if_pos hskip]
    · intro hfalse
      rw [hskip] at hfalse
      cases hfalse
    · intro hfalse
      rw [hskip] at hfalse
      cases hfalse
  · have heq0 : defuFields o ((key, dv) :: rest) =
        (match objGet o key, dv with
         | none, _ => defuFields (objSet o key dv) rest
         | some JValue.null, _ => defuFields (objSet o key dv) rest
         | some (JValue.obj vf), JValue.obj df =>
             defuFields (objSet o key (JValue.obj (defuFields vf df))) rest
         | some _, _ => defuFields o rest) := by
      rw [defuFields.eq_def]
      dsimp only
      rw [if_neg hskip]
    cases hget : objGet o key with
    | none =>
      refine ⟨objSet o key dv, ?_, fun k hk => objGet_objSet_ne o key k dv hk, ?_, ?_, ?_⟩
      · rw [heq0, hget]
      · intro htrue
        exact absurd htrue hskip
      · intro _ _
        exact objGet_objSet_self o key dv
      · intro _ vf df _ hcontra
        simp at hcontra
    | some v =>
      cases v with
      | null =>
        refine ⟨objSet o key dv, ?_, fun k hk => objGet_objSet_ne o key k dv hk, ?_, ?_, ?_⟩
        · rw [heq0, hget]
        · intro htrue
          exact absurd htrue hskip
        · intro _ _
          exact objGet_objSet_self o key dv
        · intro _ vf df _ hcontra
          simp at hcontra
      | bool b =>
        refine ⟨o, ?_, fun k _ => rfl, fun _ => rfl, ?_, ?_⟩
        · rw [heq0, hget]
        · intro _ hor
          rcases hor with hc | hc <;> simp at hc
        · intro _ vf df _ hcontra
          simp at hcontra
      | num n =>
        refine ⟨o, ?_, fun k _ => rfl, fun _ => rfl, ?_, ?_⟩
        · rw [heq0, hget]
        · intro _ hor
          rcases hor with hc | hc <;> simp at hc
        · intro _ vf df _ hcontra
          simp at hcontra
      | str s =>
        refine ⟨o, ?_, fun k _ => rfl, fun _ => rfl, ?_, ?_⟩
        · rw [heq0, hget]
        · intro _ hor
          rcases hor with hc | hc <;> simp at hc
        · intro _ vf df _ hcontra
          simp at hcontra
      | arr es =>
        refine ⟨o, ?_, fun k _ => rfl, fun _ => rfl, ?_, ?_⟩
        · rw [heq0, hget]
        · intro _ hor
          rcases hor with hc | hc <;> simp at hc
        · intro _ vf df _ hcontra
          simp at hcontra
      | obj vf =>
        cases dv with
        | obj df =>
          refine ⟨objSet o key (JValue.obj (defuFields vf df)), ?_,
            (fun k hk => objGet_objSet_ne o key k _ hk), ?_, ?_, ?_⟩
          · rw [heq0, hget]
          · intro htrue
            exact absurd htrue hskip
          · intro _ hor
            rcases hor with hc | hc <;> simp at hc
          · intro _ vf2 df2 hdv hg2
            have hv : vf = vf2 := by simpa using hg2
            have hd : df = df2 := by simpa using hdv
            subst hv
            subst hd
            exact objGet_objSet_self o key _
        | null =>
          refine ⟨o, ?_, fun k _ => rfl, fun _ => rfl, ?_, ?_⟩
          · rw [heq0, hget]
          · intro _ hor
            rcases hor with hc | hc <;> simp at hc
          · intro _ vf2 df2 hdv _
            simp at hdv
        | bool b2 =>
          refine ⟨o, ?_, fun k _ => rfl, fun _ => rfl, ?_, ?_⟩
          · rw [heq0, hget]
          · intro _ hor
            rcases hor with hc | hc <;> simp at hc
          · intro _ vf2 df2 hdv _
            simp at hdv
        | num n2 =>
          refine ⟨o, ?_, fun k _ => rfl, fun _ => rfl, ?_, ?_⟩
          · rw [heq0, hget]
          · intro _ hor
            rcases hor with hc | hc <;> simp at hc
          · intro _ vf2 df2 hdv _
            simp at hdv
        | str s2 =>
          refine ⟨o, ?_, fun k _ => rfl, fun _ => rfl, ?_, ?_⟩
          · rw [heq0, hget]
          · intro _ hor
            rcases hor with hc | hc <;> simp at hc
          · intro _ vf2 df2 hdv _
            simp at hdv
        | arr es2 =>
          refine ⟨o, ?_, fun k _ => rfl, fun _ => rfl, ?_, ?_⟩
          · rw [heq0, hget]
          · intro _ hor
            rcases hor with hc | hc <;> simp at hc
          · intro _ vf2 df2 hdv _
            simp at hdv

theorem defuFields_objGet_not_mem :
    ∀ (d o : List (String × JValue)) (k : String), k ∉ d.map Prod.fst →
      objGet (defuFields o d) k = objGet o k := by
  intro d
  induction d with
  | nil =>
    intro o k _
    rw [defuFields.eq_def]
  | cons p rest ih =>
    intro o k hk
    rcases p with ⟨key, dv⟩
    have hne : key ≠ k := fun h => hk (by simp [h])
    have hkrest : k ∉ rest.map Prod.fst := fun h => hk (by simp [h])
    obtain ⟨o', h1, h2, _, _, _⟩ := defuFields_cons_shape o key dv rest
    rw [h1, ih o' k hkrest, h2 k hne]

theorem defuFields_objGet_dunder :
    ∀ (d o : List (String × JValue)) (k : String),
      k = "__proto__" ∨ k = "constructor" →
      objGet (defuFields o d) k = objGet o k := by
  intro d
  induction d with
  | nil =>
    intro o k _
    rw [defuFields.eq_def]
  | cons p rest ih =>
    intro o k hk
    rcases p with ⟨key, dv⟩
    obtain ⟨o', h1, h2, h3, _, _⟩ := defuFields_cons_shape o key dv rest
    rw [h1, ih o' k hk]
    by_cases hkey : key = k
    · subst hkey
      rw [h3 (by rcases hk with rfl | rfl <;> simp)]
    · rw [h2 k hkey]

theorem defuFields_fill :
    ∀ (d o : List (String × JValue)), (d.map Prod.fst).Nodup →
      (∀ k dv, (k, dv) ∈ d → k ≠ "__proto__" → k ≠ "constructor" →
        (objGet o k = none ∨ objGet o k = some JValue.null) →
        objGet (defuFields o d) k = some dv) ∧
      (∀ k vf df, (k, JValue.obj df) ∈ d → k ≠ "__proto__" → k ≠ "constructor" →
        objGet o k = some (JValue.obj vf) →
        objGet (defuFields o d) k = some (JValue.obj (defuFields vf df))) := by
  intro d
  induction d with
  | nil =>
    intro o _
    constructor
    · intro k dv hmem
      simp at hmem
    · intro k vf df hmem
      simp at hmem
  | cons p rest ih =>
    intro o hnd
    rcases p with ⟨key, hdv⟩
    have hnd' : (key :: rest.map Prod.fst).Nodup := by simpa using hnd
    have hkeyrest : key ∉ rest.map Prod.fst := (List.nodup_cons.mp hnd').1
    have hndrest : (rest.map Prod.fst).Nodup := (List.nodup_cons.mp hnd').2
    obtain ⟨o', h1, h2, h3, h4, h5⟩ := defuFields_cons_shape o key hdv rest
    constructor
    · intro k dv hmem hd1 hd2 hget
      rcases List.mem_cons.mp hmem with heq | hmemr
      · have e1 : k = key := congrArg Prod.fst heq
        have e2 : dv = hdv := congrArg Prod.snd heq
        subst e1
        subst e2
        have hskipf : (k == "__proto__" || k == "constructor") = false := by
          rw [Bool.or_eq_false_iff]
          exact ⟨beq_false_of_ne hd1, beq_false_of_ne hd2⟩
        rw [h1, defuFields_objGet_not_mem rest o' k hkeyrest]
        exact h4 hskipf hget
      · have hne : key ≠ k := by
          intro h
          subst h
          exact hkeyrest (List.mem_map_of_mem Prod.fst hmemr)
        rw [h1]
        exact (ih o' hndrest).1 k dv hmemr hd1 hd2 (by rw [h2 k hne]; exact hget)
    · intro k vf df hmem hd1 hd2 hget
      rcases List.mem_cons.mp hmem with heq | hmemr
      · have e1 : k = key := congrArg Prod.fst heq
        have e2 : JValue.obj df = hdv := congrArg Prod.snd heq
        subst e1
        subst e2
        have hskipf : (k == "__proto__" || k == "constructor") = false := by
          rw [Bool.or_eq_false_iff]
          exact ⟨beq_false_of_ne hd1, beq_false_of_ne hd2⟩
        rw [h1, defuFields_objGet_not_mem rest o' k hkeyrest]
        exact h5 hskipf vf df rfl hget
      · have hne : key ≠ k := by
          intro h
          subst h
          exact hkeyrest (List.mem_map_of_mem Prod.fst hmemr)
        rw [h1]
        exact (ih o' hndrest).2 k vf df hmemr hd1 hd2 (by rw [h2 k hne]; exact hget)

/-- **C10.** `defu(obj, defaults)` never transfers a defaults entry keyed
`__proto__` or `constructor` (those iterations are skipped, so lookups at
those keys still see `obj`'s own value); every other defaults key that is
`undefined` or `null` in `obj` is filled with the defaults value; and a key
holding plain objects on both sides is merged recursively. -/
theorem defu_spec (o d : List (String × JValue)) (hnd : (d.map Prod.fst).Nodup) :
    (objGet (defu (some o) d) "__proto__" = objGet o "__proto__" ∧
     objGet (defu (some o) d) "constructor" = objGet o "constructor") ∧
    (∀ k dv, (k, dv) ∈ d → k ≠ "__proto__" → k ≠ "constructor" →
      (objGet o k = none ∨ objGet o k = some JValue.null) →
      objGet (defu (some o) d) k = some dv) ∧
    (∀ k vf df, (k, JValue.obj df) ∈ d → k ≠ "__proto__" → k ≠ "constructor" →
      objGet o k = some (JValue.obj vf) →
      objGet (defu (some o) d) k = some (JValue.obj (defuFields vf df))) := by
  have hdefu : defu (some o) d = defuFields o d := rfl
  rw [hdefu]
  exact ⟨⟨defuFields_objGet_dunder d o "__proto__" (Or.inl rfl),
    defuFields_objGet_dunder d o "constructor" (Or.inr rfl)⟩,
    (defuFields_fill d o hnd).1, (defuFields_fill d o hnd).2⟩

/-- Witness for C10: a malicious defaults object carrying a `__proto__`
entry is not transferred, while an ordinary `null` entry is filled and a
nested plain object is merged recursively. -/
theorem defu_spec_witness :
    objGet (defu (some [("a", JValue.null), ("m", JValue.obj [("x", JValue.num 1)])])
        [("__proto__", JValue.str "evil"), ("a", JValue.num 2),
         ("m", JValue.obj [("y", JValue.num 3)])]) "__proto__" = none ∧
    objGet (defu (some [("a", JValue.null), ("m", JValue.obj [("x", JValue.num 1)])])
        [("__proto__", JValue.str "evil"), ("a", JValue.num 2),
         ("m", JValue.obj [("y", JValue.num 3)])]) "a" = some (JValue.num 2) ∧
    objGet (defu (some [("a", JValue.null), ("m", JValue.obj [("x", JValue.num 1)])])
        [("__proto__", JValue.str "evil"), ("a", JValue.num 2),
         ("m", JValue.obj [("y", JValue.num 3)])]) "m" =
      some (JValue.obj [("x", JValue.num 1), ("y", JValue.num 3)]) := by
  have h := defu_spec [("a", JValue.null), ("m", JValue.obj [("x", JValue.num 1)])]
    [("__proto__", JValue.str "evil"), ("a", JValue.num 2),
     ("m", JValue.obj [("y", JValue.num 3)])] (by decide)
  refine ⟨h.1.1, ?_, ?_⟩
  · exact h.2.1 "a" (JValue.num 2)
      (List.mem_cons_of_mem _ (List.mem_cons_self _ _))
      (by decide) (by decide) (Or.inr rfl)
  · have hm := h.2.2 "m" [("x", JValue.num 1)] [("y", JValue.num 3)]
      (List.mem_cons_of_mem _ (List.mem_cons_of_mem _ (List.mem_cons_self _ _)))
      (by decide) (by decide) rfl
    rw [hm]
    have heval : defuFields [("x", JValue.num 1)] [("y", JValue.num 3)] =
        [("x", JValue.num 1), ("y", JValue.num 3)] := by
      have hg : objGet [("x", JValue.num 1)] "y" = none := rfl
      rw [defuFields.eq_def]
      dsimp only
      rw [if_neg (by decide), hg]
      dsimp only
      rw [defuFields.eq_def]
      rfl
    rw [heval]

/-!
### InlineCode.match — grammar.ts 205-236 / 424-454

`match(str)` requires a leading backtick, counts the opening run (`size`),
then scans forward keeping the length of the current backtick run
(`curSize`); when the current run reaches exactly `size` and is not extended
by a further backtick, it returns `[match, text, mark]`.  The scan is
embedded with explicit fuel (the loop advances `pos` by one each step, so
`s.length` steps always suffice).
-/

/-- The `while` loop at the top of `InlineCode.match`: length of the leading
backtick run (`size = pos` after the loop; the `startsWith` guard is kept in
`inlineCodeMatch`). -/
def countTicks : List Char → Nat
  | [] => 0
  | c :: rest => if c = '`' then countTicks rest + 1 else 0

/-- The `for (; pos < str.length; pos++)` scan of `InlineCode.match`: returns
the index of the last backtick of the closing run (where the source
returns), or none when the loop runs off the end. -/
def icScan (s : List Char) (size : Nat) : Nat → Nat → Nat → Option Nat
  | 0, _, _ => none
  | fuel + 1, pos, curSize =>
    if pos < s.length then
      if s[pos]? = some '`' then
        if curSize + 1 = size ∧ s[pos + 1]? ≠ some '`' then some pos
        else icScan s size fuel (pos + 1) (curSize + 1)
      else icScan s size fuel (pos + 1) 0
    else none

/-- `InlineCode.match` (grammar.ts 205-236 / 424-454): on success the source
returns `[str.substring(0, pos + 1), str.substring(size, pos - size + 1),
str.substring(0, size)]`; `false` becomes `none`. -/
def inlineCodeMatch (s : List Char) : Option (List Char × List Char × List Char) :=
  if s.head? = some '`' then
    match icScan s (countTicks s) s.length (countTicks s) 0 with
    | some pos =>
        some (s.take (pos + 1),
          (s.take (pos - countTicks s + 1)).drop (countTicks s),
          s.take (countTicks s))
    | none => none
  else none

/-- `i` starts a maximal run of exactly `N` backticks: `N` backticks from
`i`, not extended by a backtick on the right, and not preceded by one. -/
def exactRunAt (s : List Char) (N i : Nat) : Prop :=
  (∀ k, k < N → s[i + k]? = some '`') ∧
    s[i + N]? ≠ some '`' ∧ s[i - 1]? ≠ some '`'

instance (s : List Char) (N i : Nat) : Decidable (exactRunAt s N i) := by
  unfold exactRunAt
  exact instDecidableAnd

lemma countTicks_run (s : List Char) : ∀ k, k < countTicks s → s[k]? = some '`' := by
  induction s with
  | nil => intro k hk; simp [countTicks] at hk
  | cons c t ih =>
    intro k hk
    rw [countTicks] at hk
    by_cases hc : c = '`'
    · rw [if_pos hc] at hk
      cases k with
      | zero => simp [hc]
      | succ k => simpa using ih k (by omega)
    · rw [if_neg hc] at hk
      omega

lemma countTicks_end (s : List Char) : s[countTicks s]? ≠ some '`' := by
  induction s with
  | nil => simp [countTicks]
  | cons c t ih =>
    rw [countTicks]
    by_cases hc : c = '`'
    · rw [if_pos hc]
      simpa using ih
    · rw [if_neg hc]
      simpa using hc

lemma countTicks_pos (s : List Char) (h : s.head? = some '`') : 1 ≤ countTicks s := by
  cases s with
  | nil => simp at h
  | cons c t =>
    simp at h
    rw [countTicks, if_pos h]
    omega

/-- Once `pos` has passed the end of the string, no exact `N`-run at or
after the start of the current run exists (so the scan's `return false` is
complete). -/
lemma icScan_end_noRun (s : List Char) (N pos cur : Nat) (hN : 1 ≤ N)
    (hge : s.length ≤ pos) (hpc : N + cur ≤ pos)
    (hticks : ∀ k, pos - cur ≤ k → k < pos → s[k]? = some '`')
    (hcurN : cur = N → s[pos]? = some '`') :
    ∀ i, pos - cur ≤ i → ¬ exactRunAt s N i := by
  intro i hi hex
  obtain ⟨hrun, hnext, hprev⟩ := hex
  have hi0 : s[i]? = some '`' := by simpa using hrun 0 (by omega)
  have hilt : i < s.length := by
    by_contra hcon
    rw [List.getElem?_eq_none (by omega)] at hi0
    simp at hi0
  rcases Nat.eq_or_lt_of_le hi with hieq | higt
  · rcases Nat.lt_trichotomy N cur with h1 | h2 | h3
    · exact hnext (hticks (i + N) (by omega) (by omega))
    · have hp := hcurN h2.symm
      rw [List.getElem?_eq_none hge] at hp
      simp at hp
    · have hcv := hrun cur h3
      rw [show i + cur = pos from by omega,
        List.getElem?_eq_none hge] at hcv
      simp at hcv
  · exact hprev (hticks (i - 1) (by omega) (by omega))

/-- Characterization of the `InlineCode.match` scan: from any state whose
current-run invariants hold, a returned index is the last backtick of the
first exact `N`-run at or after the current run start, and conversely any
such run makes the scan succeed. -/
lemma icScan_char (s : List Char) (N : Nat) (hN : 1 ≤ N)
    (hNs : s[N]? ≠ some '`') :
    ∀ fuel pos cur, s.length - pos ≤ fuel → N + cur ≤ pos →
    (∀ k, pos - cur ≤ k → k < pos → s[k]? = some '`') →
    (pos - cur = N ∨ s[pos - cur - 1]? ≠ some '`') →
    (cur = N → s[pos]? = some '`') →
    ((∀ p, icScan s N fuel pos cur = some p →
        ∃ i, pos - cur ≤ i ∧ p = i + N - 1 ∧ exactRunAt s N i ∧
          ∀ j, pos - cur ≤ j → exactRunAt s N j → i ≤ j) ∧
      (∀ i, pos - cur ≤ i → exactRunAt s N i →
        (icScan s N fuel pos cur).isSome = true)) := by
  intro fuel
  induction fuel with
  | zero =>
    intro pos cur hfuel hpc hticks _ hcurN
    refine ⟨?_, ?_⟩
    · intro p hp
      simp [icScan] at hp
    · intro i hi hex
      exact absurd hex (icScan_end_noRun s N pos cur hN (by omega) hpc hticks hcurN i hi)
  | succ fuel ih =>
    intro pos cur hfuel hpc hticks hbd hcurN
    by_cases hlt : pos < s.length
    · by_cases htk : s[pos]? = some '`'
      · by_cases hcond : cur + 1 = N ∧ s[pos + 1]? ≠ some '`'
        · have hstep : icScan s N (fuel + 1) pos cur = some pos := by
            rw [icScan, if_pos hlt, if_pos htk, if_pos hcond]
          obtain ⟨hc1, hc2⟩ := hcond
          refine ⟨?_, ?_⟩
          · intro p hp
            rw [hstep] at hp
            obtain rfl : pos = p := Option.some.inj hp
            refine ⟨pos - cur, le_refl _, by omega, ⟨?_, ?_, ?_⟩, fun j hj _ => hj⟩
            · intro k hk
              by_cases hkc : k < cur
              · exact hticks (pos - cur + k) (by omega) (by omega)
              · rw [show pos - cur + k = pos from by omega]
                exact htk
            · rw [show pos - cur + N = pos + 1 from by omega]
              exact hc2
            · rcases hbd with hbdl | hbdr
              · exfalso
                rcases Nat.eq_zero_or_pos cur with hc0 | hcpos
                · apply hNs
                  rw [show N = pos from by omega]
                  exact htk
                · apply hNs
                  rw [show N = pos - cur from hbdl.symm]
                  exact hticks (pos - cur) (le_refl _) (by omega)
              · exact hbdr
          · intro i _ _
            rw [hstep]
            rfl
        · have hstep : icScan s N (fuel + 1) pos cur =
              icScan s N fuel (pos + 1) (cur + 1) := by
            rw [icScan, if_pos hlt, if_pos htk, if_neg hcond]
          have hticks2 : ∀ k, (pos + 1) - (cur + 1) ≤ k → k < pos + 1 →
              s[k]? = some '`' := by
            intro k h1 h2
            rcases Nat.lt_or_ge k pos with hk | hk
            · exact hticks k (by omega) hk
            · rw [show k = pos from by omega]
              exact htk
          have hbd2 : (pos + 1) - (cur + 1) = N ∨
              s[(pos + 1) - (cur + 1) - 1]? ≠ some '`' := by
            rw [Nat.add_sub_add_right]
            exact hbd
          have hcurN2 : cur + 1 = N → s[pos + 1]? = some '`' := by
            intro h1
            by_contra hne
            exact hcond ⟨h1, hne⟩
          have hIH := ih (pos + 1) (cur + 1) (by omega) (by omega) hticks2 hbd2 hcurN2
          rw [Nat.add_sub_add_right] at hIH
          refine ⟨?_, ?_⟩
          · intro p hp
            rw [hstep] at hp
            exact hIH.1 p hp
          · intro i hi hex
            rw [hstep]
            exact hIH.2 i hi hex
      · have hstep : icScan s N (fuel + 1) pos cur = icScan s N fuel (pos + 1) 0 := by
          rw [icScan, if_pos hlt, if_neg htk]
        have hNoEx : ∀ j, pos - cur ≤ j → j < pos + 1 → ¬ exactRunAt s N j := by
          intro j hj1 hj2 hex
          obtain ⟨hrun, hnext, hprev⟩ := hex
          rcases Nat.lt_or_ge j pos with hjlt | hjge
          · rcases Nat.eq_or_lt_of_le hj1 with hjeq | hjgt
            · rcases Nat.lt_trichotomy N cur with h1 | h2 | h3
              · exact hnext (hticks (j + N) (by omega) (by omega))
              · exact htk (hcurN h2.symm)
              · have hcv := hrun cur h3
                rw [show j + cur = pos from by omega] at hcv
                exact htk hcv
            · exact hprev (hticks (j - 1) (by omega) (by omega))
          · have hjp : j = pos := by omega
            have h0 := hrun 0 (by omega)
            rw [hjp, Nat.add_zero] at h0
            exact htk h0
        have hticks2 : ∀ k, (pos + 1) - 0 ≤ k → k < pos + 1 → s[k]? = some '`' := by
          intro k h1 h2
          omega
        have hbd2 : (pos + 1) - 0 = N ∨ s[(pos + 1) - 0 - 1]? ≠ some '`' := by
          right
          simpa using htk
        have hcurN2 : (0 : Nat) = N → s[pos + 1]? = some '`' := by
          intro h0
          exact absurd h0.symm (by omega)
        have hIH := ih (pos + 1) 0 (by omega) (by omega) hticks2 hbd2 hcurN2
        rw [Nat.sub_zero] at hIH
        refine ⟨?_, ?_⟩
        · intro p hp
          rw [hstep] at hp
          obtain ⟨i, hi1, hi2, hi3, hi4⟩ := hIH.1 p hp
          refine ⟨i, by omega, hi2, hi3, ?_⟩
          intro j hj hjex
          rcases Nat.lt_or_ge j (pos + 1) with hjlt | hjge
          · exact absurd hjex (hNoEx j hj hjlt)
          · exact hi4 j hjge hjex
        · intro i hi hex
          rw [hstep]
          rcases Nat.lt_or_ge i (pos + 1) with hilt | hige
          · exact absurd hex (hNoEx i hi hilt)
          · exact hIH.2 i hige hex
    · have hstep : icScan s N (fuel + 1) pos cur = none := by
        rw [icScan, if_neg hlt]
      refine ⟨?_, ?_⟩
      · intro p hp
        rw [hstep] at hp
        exact absurd hp (by simp)
      · intro i hi hex
        exact absurd hex
          (icScan_end_noRun s N pos cur hN (by omega) hpc hticks hcurN i hi)

/-- The scan exactly as `inlineCodeMatch` invokes it. -/
lemma icScan_main (s : List Char) (N : Nat) (hN : 1 ≤ N)
    (hNs : s[N]? ≠ some '`') :
    (∀ p, icScan s N s.length N 0 = some p →
        ∃ i, N ≤ i ∧ p = i + N - 1 ∧ exactRunAt s N i ∧
          ∀ j, N ≤ j → exactRunAt s N j → i ≤ j) ∧
      (∀ i, N ≤ i → exactRunAt s N i → (icScan s N s.length N 0).isSome = true) := by
  have h := icScan_char s N hN hNs s.length N 0 (by omega) (by omega)
    (fun k h1 h2 => absurd h2 (by omega)) (Or.inl (by omega))
    (fun h0 => absurd h0.symm (by omega))
  rw [Nat.sub_zero] at h
  exact h

/-- **C4.** For every string starting with a run of `N ≥ 1` backticks
(`N = countTicks s`), `InlineCode.match` succeeds iff the string contains a
later maximal run of exactly `N` backticks (not extended on either side);
on success, with `i` the start of the first such run, it returns the
consumed text `s.take (i + N)`, the enclosed content
`(s.take i).drop N`, and the opening mark `s.take N`; otherwise it returns
false (`none`). -/
theorem inlineCodeMatch_spec (s : List Char) (h0 : s.head? = some '`') :
    ((inlineCodeMatch s).isSome ↔
      ∃ i, countTicks s ≤ i ∧ exactRunAt s (countTicks s) i) ∧
    (∀ i, countTicks s ≤ i → exactRunAt s (countTicks s) i →
      (∀ j, countTicks s ≤ j → exactRunAt s (countTicks s) j → i ≤ j) →
      inlineCodeMatch s =
        some (s.take (i + countTicks s),
          (s.take i).drop (countTicks s), s.take (countTicks s))) := by
  have hN := countTicks_pos s h0
  have hNs := countTicks_end s
  have h := icScan_main s (countTicks s) hN hNs
  unfold inlineCodeMatch
  rw [if_pos h0]
  constructor
  · cases hscan : icScan s (countTicks s) s.length (countTicks s) 0 with
    | none =>
      constructor
      · intro hsome
        simp at hsome
      · rintro ⟨i, hi, hex⟩
        have h2 := h.2 i hi hex
        rw [hscan] at h2
        simp at h2
    | some p =>
      constructor
      · intro _
        obtain ⟨i, hi1, _, hi3, _⟩ := h.1 p hscan
        exact ⟨i, hi1, hi3⟩
      · intro _
        simp
  · intro i hi hex hmin
    have hsome := h.2 i hi hex
    cases hscan : icScan s (countTicks s) s.length (countTicks s) 0 with
    | none =>
      rw [hscan] at hsome
      simp at hsome
    | some p =>
      obtain ⟨i2, hi21, hp, hi23, hi2min⟩ := h.1 p hscan
      have hieq : i2 = i := le_antisymm (hi2min i hi hex) (hmin i2 hi21 hi23)
      show some (s.take (p + 1),
        (s.take (p - countTicks s + 1)).drop (countTicks s), s.take (countTicks s)) = _
      rw [show p + 1 = i + countTicks s from by omega,
        show p - countTicks s + 1 = i from by omega]

/-- Witness: in s = [tick, tick, x, tick, y, tick, tick, z] the opening run
has length 2 and the first (only) exact 2-run starts at index 5, so the
match consumes through index 6 and the content is [x, tick, y]. -/
theorem inlineCodeMatch_spec_witness :
    inlineCodeMatch ['`', '`', 'x', '`', 'y', '`', '`', 'z'] =
      some (['`', '`', 'x', '`', 'y', '`', '`'], ['x', '`', 'y'], ['`', '`']) := by
  have h := inlineCodeMatch_spec ['`', '`', 'x', '`', 'y', '`', '`', 'z'] rfl
  have hmin : ∀ j, countTicks ['`', '`', 'x', '`', 'y', '`', '`', 'z'] ≤ j →
      exactRunAt ['`', '`', 'x', '`', 'y', '`', '`', 'z']
        (countTicks ['`', '`', 'x', '`', 'y', '`', '`', 'z']) j → 5 ≤ j := by
    intro j hj hex
    by_contra hcon
    push_neg at hcon
    have hct : countTicks ['`', '`', 'x', '`', 'y', '`', '`', 'z'] = 2 := by decide
    rw [hct] at hj hex
    interval_cases j <;> exact absurd hex (by decide)
  have h2 := h.2 5 (by decide) (by decide) hmin
  rw [h2]
  rfl

/-!
### URL.match — grammar.ts 237-280 / 456-494

`match(str)` runs the anchored case-insensitive regex
`^(https?://HOST(?::\d{1,5})?)((?:/[^\s<>]*)?)` and then trims a trailing
suffix of punctuation and unbalanced closing parentheses from the path
part (group 2).  Every regex component after the mandatory
`https?://[a-z\d]` is optional or a greedy star, so the backtracking
search is equivalent to the deterministic greedy parse embedded below:
each quantifier takes its local maximum and the match never fails once
the mandatory prefix matched.
-/

/-- `[a-z\d]` under the `/i` flag: an ASCII letter or digit. -/
def isAlnum (c : Char) : Bool := c.isAlpha || c.isDigit

/-- `[a-z\d-]` under `/i`. -/
def isHostChar (c : Char) : Bool := isAlnum c || c == '-'

/-- The `https?://` prefix under `/i`: the optional `s` is committed iff
the full `https://` prefix is present (backtracking to `http` then
requires `:` where the input has `s`, so it fails). Returns the length of
the scheme part. -/
def parseScheme (s : List Char) : Option Nat :=
  if (s.take 8).map Char.toLower = ['h', 't', 't', 'p', 's', ':', '/', '/'] then some 8
  else if (s.take 7).map Char.toLower = ['h', 't', 't', 'p', ':', '/', '/'] then some 7
  else none

/-- `(?:[a-z\d-]{0,61}[a-z\d])?`, greedy: the longest extension `m + 1`
with `m ≤ 61`, the first `m` characters in `[a-z\d-]` and the next one
alphanumeric; `0` when no such `m` exists (the group matches empty). -/
def labelExt (l : List Char) : Nat :=
  match ((List.range 62).filter (fun m =>
      (l.take m).all isHostChar && (match l[m]? with
        | some c => isAlnum c
        | none => false))).max? with
  | some m => m + 1
  | none => 0

/-- `(?:\.[a-z\d](?:[a-z\d-]{0,61}[a-z\d])?)*`, greedy: total length
consumed by the dot-label star (each iteration consumes at least two
characters, so `l.length` fuel always suffices). -/
def dotLabels : Nat → List Char → Nat
  | 0, _ => 0
  | fuel + 1, l =>
    match l with
    | '.' :: c :: rest =>
      if isAlnum c then 2 + labelExt rest + dotLabels fuel (rest.drop (labelExt rest))
      else 0
    | _ => 0

/-- `(?::\d{1,5})?`, greedy: a colon followed by one to five digits, or
nothing. -/
def portLen (l : List Char) : Nat :=
  match l with
  | ':' :: rest =>
    if 1 ≤ (rest.takeWhile Char.isDigit).length then
      1 + min (rest.takeWhile Char.isDigit).length 5
    else 0
  | _ => 0

/-- `((?:\/[^\s<>]*)?)`, greedy: the path part (group 2). -/
def pathLen (l : List Char) : Nat :=
  match l with
  | '/' :: rest =>
    1 + (rest.takeWhile (fun c => !(jsWhitespace c || c == '<' || c == '>'))).length
  | _ => 0

/-- Length of group 1 (`urlStart`): scheme, first host character, greedy
host label extension, greedy dot-labels, optional port — `none` when the
regex fails (no scheme prefix, or no alphanumeric character after it). -/
def urlStartLen (s : List Char) : Option Nat :=
  match parseScheme s with
  | some k =>
    match s[k]? with
    | some c =>
      if isAlnum c then
        some (k + 1 + labelExt (s.drop (k + 1)) +
          dotLabels s.length (s.drop (k + 1 + labelExt (s.drop (k + 1)))) +
          portLen (s.drop (k + 1 + labelExt (s.drop (k + 1)) +
            dotLabels s.length (s.drop (k + 1 + labelExt (s.drop (k + 1)))))))
      else none
    | none => none
  | none => none

/-- The `count` closure of `URL.match`: occurrences of `c` before the
current `end` (the caller passes the prefix). -/
def countChar (l : List Char) (c : Char) : Nat := (l.filter (fun x => x == c)).length

/-- `/[!"'*,.:;?_~]/` of the later snapshot (grammar.ts 486). -/
def trimChar (c : Char) : Bool :=
  c == '!' || c == Char.ofNat 34 || c == Char.ofNat 39 || c == '*' || c == ',' ||
    c == '.' || c == ':' || c == ';' || c == '?' || c == '_' || c == '~'

/-- The trim-loop test at `end = j + 1`: `last = urlEnd[j]` is punctuation,
or an unbalanced closing parenthesis (counts taken over `urlEnd[0..end)`).
Off the end, `last` is `undefined`, which passes neither test. -/
def dropCond (u : List Char) (j : Nat) : Bool :=
  match u[j]? with
  | some last =>
    trimChar last ||
      (last == ')' && countChar (u.take (j + 1)) '(' < countChar (u.take (j + 1)) ')')
  | none => false

/-- The `for (;;)` trim loop over `end` (grammar.ts 484-491). -/
def urlTrim (u : List Char) : Nat → Nat
  | 0 => 0
  | e + 1 => if dropCond u e then urlTrim u e else e + 1

/-- Group 2 (`urlEnd`) of the regex: the path part following `urlStart`. -/
def pathPart (s : List Char) (a : Nat) : List Char :=
  (s.drop a).take (pathLen (s.drop a))

/-- The kept length of the path after trimming. -/
def keptLen (u : List Char) : Nat := urlTrim u u.length

/-- `URL.match`: `[urlStart + urlEnd.substring(0, end)]` on success,
`false` (none) otherwise. -/
def urlMatch (s : List Char) : Option (List Char) :=
  match urlStartLen s with
  | some a => some (s.take a ++ (pathPart s a).take (keptLen (pathPart s a)))
  | none => none

lemma urlTrim_le (u : List Char) : ∀ e, urlTrim u e ≤ e := by
  intro e
  induction e with
  | zero => exact le_refl 0
  | succ e ih =>
    rw [urlTrim]
    by_cases h : dropCond u e = true
    · rw [if_pos h]
      omega
    · rw [if_neg h]

lemma urlTrim_dropped (u : List Char) :
    ∀ e j, urlTrim u e ≤ j → j < e → dropCond u j = true := by
  intro e
  induction e with
  | zero => intro j h1 h2; omega
  | succ e ih =>
    intro j h1 h2
    rw [urlTrim] at h1
    by_cases h : dropCond u e = true
    · rw [if_pos h] at h1
      rcases Nat.lt_or_ge j e with hj | hj
      · exact ih j h1 hj
      · rw [show j = e from by omega]
        exact h
    · rw [if_neg h] at h1
      omega

lemma urlTrim_stop (u : List Char) :
    ∀ e, urlTrim u e = 0 ∨ dropCond u (urlTrim u e - 1) = false := by
  intro e
  induction e with
  | zero => exact Or.inl rfl
  | succ e ih =>
    rw [urlTrim]
    by_cases h : dropCond u e = true
    · rw [if_pos h]
      exact ih
    · rw [if_neg h]
      right
      simpa using h

lemma parseScheme_some_iff (s : List Char) (k : Nat) :
    parseScheme s = some k ↔
      ((s.take 8).map Char.toLower = ['h', 't', 't', 'p', 's', ':', '/', '/'] ∧ k = 8) ∨
      ((s.take 7).map Char.toLower = ['h', 't', 't', 'p', ':', '/', '/'] ∧ k = 7) := by
  have hex : (s.take 8).map Char.toLower = ['h', 't', 't', 'p', 's', ':', '/', '/'] →
      (s.take 7).map Char.toLower = ['h', 't', 't', 'p', ':', '/', '/'] → False := by
    intro h8 h7
    have e8 : ((s.take 8).map Char.toLower)[4]? = some 's' := by rw [h8]; rfl
    have e7 : ((s.take 7).map Char.toLower)[4]? = some ':' := by rw [h7]; rfl
    rw [List.getElem?_map, List.getElem?_take_of_lt (by omega)] at e8
    rw [List.getElem?_map, List.getElem?_take_of_lt (by omega)] at e7
    rw [e8] at e7
    simp at e7
  unfold parseScheme
  by_cases h8 : (s.take 8).map Char.toLower = ['h', 't', 't', 'p', 's', ':', '/', '/']
  · rw [if_pos h8]
    constructor
    · intro h
      exact Or.inl ⟨h8, (Option.some.inj h).symm⟩
    · rintro (⟨_, rfl⟩ | ⟨h7, rfl⟩)
      · rfl
      · exact absurd (hex h8 h7) (fun f => f)
  · rw [if_neg h8]
    by_cases h7 : (s.take 7).map Char.toLower = ['h', 't', 't', 'p', ':', '/', '/']
    · rw [if_pos h7]
      constructor
      · intro h
        exact Or.inr ⟨h7, (Option.some.inj h).symm⟩
      · rintro (⟨h8x, rfl⟩ | ⟨_, rfl⟩)
        · exact absurd h8x h8
        · rfl
    · rw [if_neg h7]
      constructor
      · intro h
        simp at h
      · rintro (⟨h8x, _⟩ | ⟨h7x, _⟩)
        · exact absurd h8x h8
        · exact absurd h7x h7

lemma urlStartLen_isSome_iff (s : List Char) :
    (urlStartLen s).isSome = true ↔
      ∃ k c, parseScheme s = some k ∧ s[k]? = some c ∧ isAlnum c = true := by
  cases hps : parseScheme s with
  | none => simp [urlStartLen, hps]
  | some k =>
    cases hsk : s[k]? with
    | none => simp [urlStartLen, hps, hsk]
    | some c =>
      by_cases hal : isAlnum c = true
      · simp [urlStartLen, hps, hsk, hal]
      · simp [urlStartLen, hps, hsk, hal]

/-- **C5.** `URL.match` succeeds iff the string starts (case-insensitively)
with `http://` or `https://` followed by an alphanumeric character; on
success it returns the authority part (`urlStart`, never trimmed)
concatenated with the path part cut at the trim point: every removed path
character is sentence punctuation or a closing parenthesis unbalanced in
the prefix up to and including it, and the trim is maximal (the loop stops
at 0 or at the first character, from the right, that passes neither test). -/
theorem urlMatch_spec (s : List Char) :
    ((urlMatch s).isSome = true ↔
      ((s.take 7).map Char.toLower = ['h', 't', 't', 'p', ':', '/', '/'] ∧
        ∃ c, s[7]? = some c ∧ isAlnum c = true) ∨
      ((s.take 8).map Char.toLower = ['h', 't', 't', 'p', 's', ':', '/', '/'] ∧
        ∃ c, s[8]? = some c ∧ isAlnum c = true)) ∧
    (∀ a, urlStartLen s = some a →
      urlMatch s = some (s.take a ++ (pathPart s a).take (keptLen (pathPart s a))) ∧
      keptLen (pathPart s a) ≤ (pathPart s a).length ∧
      (∀ j, keptLen (pathPart s a) ≤ j → j < (pathPart s a).length →
        dropCond (pathPart s a) j = true) ∧
      (keptLen (pathPart s a) = 0 ∨
        dropCond (pathPart s a) (keptLen (pathPart s a) - 1) = false)) := by
  constructor
  · have hiff : (urlMatch s).isSome = (urlStartLen s).isSome := by
      unfold urlMatch
      cases urlStartLen s <;> rfl
    rw [hiff, urlStartLen_isSome_iff]
    constructor
    · rintro ⟨k, c, hps, hsk, hal⟩
      rcases (parseScheme_some_iff s k).mp hps with ⟨h8, rfl⟩ | ⟨h7, rfl⟩
      · exact Or.inr ⟨h8, c, hsk, hal⟩
      · exact Or.inl ⟨h7, c, hsk, hal⟩
    · rintro (⟨h7, c, hsk, hal⟩ | ⟨h8, c, hsk, hal⟩)
      · exact ⟨7, c, (parseScheme_some_iff s 7).mpr (Or.inr ⟨h7, rfl⟩), hsk, hal⟩
      · exact ⟨8, c, (parseScheme_some_iff s 8).mpr (Or.inl ⟨h8, rfl⟩), hsk, hal⟩
  · intro a ha
    refine ⟨?_, urlTrim_le (pathPart s a) (pathPart s a).length,
      fun j h1 h2 => urlTrim_dropped (pathPart s a) (pathPart s a).length j h1 h2,
      urlTrim_stop (pathPart s a) (pathPart s a).length⟩
    unfold urlMatch
    rw [ha]

/-- Witness: in `http://ab/x).,` the authority is 9 characters, the path
is `/x).,` and the trim removes `).,` (comma and dot as punctuation, the
parenthesis as unbalanced), keeping `/x`. -/
theorem urlMatch_spec_witness :
    urlStartLen ['h', 't', 't', 'p', ':', '/', '/', 'a', 'b', '/', 'x', ')', '.', ','] =
      some 9 ∧
    urlMatch ['h', 't', 't', 'p', ':', '/', '/', 'a', 'b', '/', 'x', ')', '.', ','] =
      some ['h', 't', 't', 'p', ':', '/', '/', 'a', 'b', '/', 'x'] := by
  have h := urlMatch_spec ['h', 't', 't', 'p', ':', '/', '/', 'a', 'b', '/', 'x', ')', '.', ',']
  have ha : urlStartLen ['h', 't', 't', 'p', ':', '/', '/', 'a', 'b', '/', 'x', ')', '.', ','] =
      some 9 := by decide
  refine ⟨ha, ?_⟩
  rw [(h.2 9 ha).1]
  decide

end MarkEd
